import Mathlib

/-!
# Verification of the NodeModal JSON edit core

Shallow embedding of `src/features/modals/NodeModal/index.tsx`:
the node-row normalizer (`normalizeNodeData`), the JSON-path renderer
(`jsonPathToString`), the path-addressed document patcher
(`updateJsonAtPath`), and the edit-session handlers of the `NodeModal`
component (`handleValueChange`, `handleSave`, `handleCancel`), together
with the JavaScript built-ins they rely on (`JSON.parse`,
`JSON.stringify`, `Number`, `String`, property access on parsed JSON
data).

Modelling conventions:
* JSON numbers are modelled as exact rationals.  JavaScript doubles are
  rounded binary values; every value any claim touches is a small
  integer, where the two agree.  Non-finite results of `Number(...)`
  (`"Infinity"`) and non-decimal radix literals (`"0x10"`) are outside
  the modelled fragment and treated as parse failures.
* Property access on parsed-JSON data models own data properties.
  Inherited prototype properties (`"toString"`, the `length` property of
  arrays and strings) are outside the modelled fragment; no claim
  involves them.
* JavaScript objects enumerate integer-like keys first.  The model keeps
  insertion order; no claim depends on enumeration order, only on the
  key-to-value mapping.
* `JSON.parse(JSON.stringify(x))` on a value that itself came out of
  `JSON.parse` is the structural identity (no `undefined`, functions,
  or `-0` can occur there), so the deep clone in `updateJsonAtPath` is
  modelled as the identity and the subsequent in-place mutation of the
  clone as a functional rebuild along the walked path.
-/

namespace NodeModal

/-- A parsed JSON value, the result type of `JSON.parse`.  Objects are
association lists in insertion order; `JSON.parse` never produces
duplicate keys. -/
inductive JSValue where
  | null
  | bool (b : Bool)
  | num (q : ℚ)
  | str (s : String)
  | arr (elems : List JSValue)
  | obj (fields : List (String × JSValue))

/-- First-occurrence lookup in an object's field list, i.e. reading an
own property of a JavaScript object. -/
def objGet {α : Type} (fields : List (String × α)) (k : String) : Option α :=
  match fields with
  | [] => none
  | (k', v) :: rest => if k' = k then some v else objGet rest k

/-- Property write `o[k] = v` on a JavaScript object: an existing key
keeps its position and gets the new value, a new key is appended. -/
def objSet {α : Type} (fields : List (String × α)) (k : String) (v : α) :
    List (String × α) :=
  match fields with
  | [] => [(k, v)]
  | (k', v') :: rest => if k' = k then (k, v) :: rest else (k', v') :: objSet rest k v

/-- The keys of an object's field list, in order. -/
def objKeys {α : Type} (fields : List (String × α)) : List String :=
  fields.map Prod.fst

/-- Apply `f` to the value of the first entry with key `k` (the slot the
imperative code mutates through its reference); no entry, no change. -/
def objModify {α : Type} (fields : List (String × α)) (k : String) (f : α → α) :
    List (String × α) :=
  match fields with
  | [] => []
  | (k', v) :: rest => if k' = k then (k', f v) :: rest else (k', v) :: objModify rest k f

/-- Apply `f` to the element at index `n` (the slot the imperative code
mutates); out of range, no change. -/
def arrModify {α : Type} (l : List α) (n : Nat) (f : α → α) : List α :=
  match l, n with
  | [], _ => []
  | x :: rest, 0 => f x :: rest
  | x :: rest, n + 1 => x :: arrModify rest n f

/-- One segment of a `NodeData["path"]`: a string key or an array
index.  The graph layer produces natural-number indices. -/
inductive Seg where
  | key (s : String)
  | idx (n : Nat)
  deriving DecidableEq, Repr

/-- `ToPropertyKey` for a segment used on an object: JavaScript converts
a numeric key to its decimal string. -/
def propKey : Seg → String
  | .key s => s
  | .idx n => toString n

/-- Decimal digits `0`-`9`. -/
def isDigitCh (c : Char) : Bool :=
  '0' ≤ c && c ≤ '9'

/-- Numeric value of a digit string (no sign). -/
def digitsToNat (cs : List Char) : Nat :=
  cs.foldl (fun a c => a * 10 + (c.toNat - '0'.toNat)) 0

/-- The canonical array index denoted by a string, if any: a JavaScript
array has an own property at string `s` exactly when `s` is the
canonical decimal numeral of an index (so `"007"` and `""` are not
indices).  The 2^32-1 upper bound of array indices is not modelled; no
claim involves such lengths. -/
def parseCanonNat (s : String) : Option Nat :=
  match s.data with
  | [] => none
  | ['0'] => some 0
  | c :: rest =>
    if c = '0' then none
    else if (c :: rest).all isDigitCh then some (digitsToNat (c :: rest)) else none

/-- The array index denoted by a segment used on an array. -/
def arrIndex : Seg → Option Nat
  | .idx n => some n
  | .key s => parseCanonNat s

/-- Property read `v[seg]` on a non-null parsed-JSON value; `none` is
JavaScript `undefined`.  Strings yield one-character strings at their
indices (UTF-16 units are modelled as Lean characters; every claim is
within the ASCII range where the two agree); numbers and booleans have
no own properties. -/
def jsGet : JSValue → Seg → Option JSValue
  | .obj fields, seg => objGet fields (propKey seg)
  | .arr l, seg => (arrIndex seg).bind fun n => l.get? n
  | .str s, seg =>
    (arrIndex seg).bind fun n => (s.data.get? n).map fun c => .str (String.mk [c])
  | .null, _ => none
  | .num _, _ => none
  | .bool _, _ => none

/-- Failure of the patcher.  The source code only ever throws
`TypeError` (property access on `undefined`/`null`).  `pathNotFound` is
the designated condition the specification posits in its error
taxonomy; it is included so the specification's claim is expressible,
and the source definitions below never produce it. -/
inductive PatchError where
  | typeError
  | pathNotFound
  deriving DecidableEq, Repr

/-- Evaluation of `cur[seg]` where `cur` may be `undefined` (`none`):
indexing `undefined` or `null` throws a `TypeError`. -/
def jsIndex (cur : Option JSValue) (seg : Seg) : Except PatchError (Option JSValue) :=
  match cur with
  | none => .error .typeError
  | some .null => .error .typeError
  | some v => .ok (jsGet v seg)

/-- The walk `for (let i = 0; i < path.length - 1; i++) current = current[path[i]]`,
started from `cur`, returning the final `current` (which may be
`undefined`) or the thrown `TypeError`. -/
def walkParent (cur : Option JSValue) : List Seg → Except PatchError (Option JSValue)
  | [] => .ok cur
  | seg :: rest =>
    match jsIndex cur seg with
    | .error e => .error e
    | .ok next => walkParent next rest

/-- The whitespace characters trimmed by JavaScript `Number(string)`
(`StrWhiteSpaceChar`); the rarer Unicode space separators are outside
the modelled fragment. -/
def jsWs (c : Char) : Bool :=
  c = ' ' || c = '\t' || c = '\n' || c = '\r' || c = '\x0b' || c = '\x0c' ||
    c = ' ' || c = '﻿'

/-- Both-ends whitespace trim of `Number(string)`. -/
def wsTrim (cs : List Char) : List Char :=
  ((cs.dropWhile jsWs).reverse.dropWhile jsWs).reverse

/-- Decimal part of a `StrDecimalLiteral` after the optional sign:
`digits [. digits?] [exp]`, `. digits [exp]`.  Returns numerator and
power-of-ten denominator exponent data: (mantissa, fraction length,
exponent). -/
def parseDecimalBody (cs : List Char) : Option (Nat × Nat × Int) :=
  let intDigits := cs.takeWhile isDigitCh
  let rest1 := cs.dropWhile isDigitCh
  let (fracDigits, rest2) :=
    match rest1 with
    | '.' :: r =>
      (r.takeWhile isDigitCh, r.dropWhile isDigitCh)
    | _ => ([], rest1)
  if intDigits.isEmpty && fracDigits.isEmpty then none
  else
    match rest2 with
    | [] => some (digitsToNat (intDigits ++ fracDigits), fracDigits.length, 0)
    | e :: r =>
      if e = 'e' || e = 'E' then
        let (esign, edigits) :=
          match r with
          | '+' :: r' => ((1 : Int), r')
          | '-' :: r' => ((-1 : Int), r')
          | _ => ((1 : Int), r)
        if edigits.isEmpty || !edigits.all isDigitCh then none
        else some (digitsToNat (intDigits ++ fracDigits), fracDigits.length,
          esign * (digitsToNat edigits : Int))
      else none

/-- Assemble a rational from mantissa, fraction length and exponent. -/
def assembleRat (sign : Int) (m : Nat) (fracLen : Nat) (e : Int) : ℚ :=
  let e10 : Int := e - (fracLen : Int)
  if 0 ≤ e10 then mkRat (sign * (m : Int) * ((10 : Int) ^ e10.toNat)) 1
  else mkRat (sign * (m : Int)) ((10 : Nat) ^ (-e10).toNat)

/-- JavaScript `Number(string)` restricted to finite decimal results:
`none` is `NaN`.  Whitespace-only input converts to `0`.  See the
header for the `Infinity` / radix-literal caveat. -/
def jsStrToNumber (s : String) : Option ℚ :=
  match wsTrim s.data with
  | [] => some 0
  | cs =>
    let (sign, body) :=
      match cs with
      | '+' :: r => ((1 : Int), r)
      | '-' :: r => ((-1 : Int), r)
      | _ => ((1 : Int), cs)
    (parseDecimalBody body).map fun x => assembleRat sign x.1 x.2.1 x.2.2

/-- The per-field coercion step of `updateJsonAtPath`: given the
existing value at the field (`originalValue`, `none` = `undefined`) and
the edited string, produce the stored value.  Translated line by line
from the `Object.entries(newValues).forEach` body. -/
def coerceField (originalValue : Option JSValue) (value : String) : JSValue :=
  match originalValue with
  | some (.num _) =>
    match jsStrToNumber value with
    | none => .str value
    | some q => .num q
  | some (.bool _) =>
    if value = "true" || value = "false" then .bool (value = "true") else .str value
  | some .null => if value = "null" then .null else .str value
  | some (.str _) => .str value
  | some (.arr _) => .str value
  | some (.obj _) => .str value
  | none => .str value

/-- The `forEach` loop over `Object.entries(newValues)`: successive
property writes on the target object, each reading the then-current
value of its field. -/
def applyEdits (fields : List (String × JSValue)) (edits : List (String × String)) :
    List (String × JSValue) :=
  edits.foldl (fun fs kv => objSet fs kv.1 (coerceField (objGet fs kv.1) kv.2)) fields

/-- Functional rebuild of the imperative in-place mutation: replace the
subtree at `segs` (resolved exactly as `jsGet` resolves the walk) by
`newV`.  Unresolvable steps leave the value unchanged; they cannot occur
when the source code actually mutates (the walked chain then consists of
containers with the walked entries present). -/
def setAtPath (v : JSValue) (segs : List Seg) (newV : JSValue) : JSValue :=
  match segs with
  | [] => newV
  | seg :: rest =>
    match v with
    | .obj fields => .obj (objModify fields (propKey seg) (fun c => setAtPath c rest newV))
    | .arr l =>
      match arrIndex seg with
      | some n => .arr (arrModify l n (fun c => setAtPath c rest newV))
      | none => .arr l
    | other => other

/-- `updateJsonAtPath(json, path, newValues)` from the source.

* empty path: return `newValues` itself (a string-valued record) as the
  new document;
* otherwise deep-clone (the identity on parsed JSON, see header), walk
  every segment but the last, evaluate `current[lastKey]` (both steps
  can throw `TypeError`), and if the target is a truthy non-array
  `object` rewrite its fields from `newValues`, else return the clone
  unchanged. -/
def updateJsonAtPath (json : JSValue) (path : List Seg)
    (newValues : List (String × String)) : Except PatchError JSValue :=
  match path with
  | [] => .ok (.obj (newValues.foldl (fun acc kv => objSet acc kv.1 (.str kv.2)) []))
  | seg :: rest =>
    match walkParent (some json) (seg :: rest).dropLast with
    | .error e => .error e
    | .ok parent =>
      match jsIndex parent ((seg :: rest).getLast (List.cons_ne_nil seg rest)) with
      | .error e => .error e
      | .ok target =>
        match target with
        | some (.obj tfs) =>
          .ok (setAtPath json (seg :: rest) (.obj (applyEdits tfs newValues)))
        | _ => .ok json

/-! ## RowNormalizer and PathFormatter -/

/-- One flattened field row of the selected node (`NodeData["text"]`
entry): optional key, scalar value, and the type tag the graph layer
attached. -/
structure Row where
  key : Option String
  value : JSValue
  type : String

/-- JavaScript truthiness of `row.key`: `undefined` and `""` are falsy. -/
def truthyKey : Option String → Bool
  | none => false
  | some s => !(s == "")

/-- `normalizeNodeData(nodeRows)` from the source: empty input gives an
empty object; a single row whose `key` is falsy gives `{ value: row.value }`;
otherwise every non-`array`/non-`object` row with a truthy key is
written into the result object in order. -/
def normalizeNodeData (nodeRows : List Row) : List (String × JSValue) :=
  match nodeRows with
  | [] => []
  | r :: rest =>
    if rest.isEmpty && !truthyKey r.key then [("value", r.value)]
    else
      (r :: rest).foldl
        (fun obj row =>
          if row.type != "array" && row.type != "object" then
            if truthyKey row.key then objSet obj (row.key.getD "") row.value else obj
          else obj)
        []

/-- Modelled from the spec's words (claim C7), for comparison with
`normalizeNodeData`: the empty sequence yields the empty mapping; a
sequence of exactly one row with no key yields `{"value": v}`;
otherwise every row whose type is neither `array` nor `object` and
whose key is non-empty contributes `key -> value`, later duplicates
overwriting earlier ones, and other rows are skipped.  "No key" is read
as the source reads it: the key is absent or empty. -/
def specNormalize (rows : List Row) : List (String × JSValue) :=
  match rows with
  | [] => []
  | [r] =>
    if r.key = none ∨ r.key = some "" then [("value", r.value)]
    else specMultiRow [r]
  | rows => specMultiRow rows
where
  specMultiRow (rows : List Row) : List (String × JSValue) :=
    rows.foldl
      (fun m row =>
        match row.key with
        | some k =>
          if k ≠ "" ∧ row.type ≠ "array" ∧ row.type ≠ "object" then objSet m k row.value
          else m
        | none => m)
      []

/-- `Array.prototype.join(sep)` on a list of strings. -/
def arrJoin (sep : String) : List String → String
  | [] => ""
  | [a] => a
  | a :: rest => a ++ sep ++ arrJoin sep rest

/-- Rendering of one path segment inside the template
`` `"${seg}"` ``-or-bare choice: numbers bare, strings double-quoted. -/
def segRender : Seg → String
  | .idx n => toString n
  | .key s => "\"" ++ s ++ "\""

/-- `jsonPathToString(path)` from the source: `"$"` for an absent or
empty path, else `` "$[" + segments.join("][") + "]" ``. -/
def jsonPathToString (path : Option (List Seg)) : String :=
  match path with
  | none => "$"
  | some segs =>
    if segs.length = 0 then "$"
    else "$[" ++ arrJoin "][" (segs.map segRender) ++ "]"

/-- One bracket group per segment, concatenated in order with no
separator. -/
def bracketConcat : List Seg → String
  | [] => ""
  | s :: rest => ("[" ++ segRender s ++ "]") ++ bracketConcat rest

/-- Modelled from the spec's words (claim C8), for comparison with
`jsonPathToString`: `"$"` for an absent or empty path; otherwise `"$"`
followed by one bracket group per segment in order, with no
separator. -/
def specFormat (path : Option (List Seg)) : String :=
  match path with
  | none => "$"
  | some [] => "$"
  | some segs => "$" ++ bracketConcat segs

/-! ## Canonical document positions

A location inside a parsed JSON document, written unambiguously: object
steps carry the (string) key, array steps the numeric index.  Two
different `Seg` lists can denote the same location (`arr[0]` and
`arr["0"]`); canonical positions identify locations, which is what the
frame property quantifies over. -/

/-- One canonical position step. -/
inductive PSeg where
  | pkey (k : String)
  | pidx (n : Nat)
  deriving DecidableEq, Repr

/-- The subtree of `v` at a canonical position, if the position exists
in `v`. -/
def getAtPos (v : JSValue) : List PSeg → Option JSValue
  | [] => some v
  | p :: rest =>
    match v, p with
    | .obj fields, .pkey k => (objGet fields k).bind fun c => getAtPos c rest
    | .arr l, .pidx n => (l.get? n).bind fun c => getAtPos c rest
    | _, _ => none

/-- `p` is an initial segment of `q` (the location `q` lies inside the
subtree at `p`). -/
def PosLe (p q : List PSeg) : Prop :=
  ∃ t, p ++ t = q

/-- The canonical position a segment walk traverses in `v`: defined
exactly when every step enters a container through a present entry —
which is the case whenever the source code reaches an object target and
mutates it. -/
def canonWalk (v : JSValue) : List Seg → Option (List PSeg)
  | [] => some []
  | seg :: rest =>
    match v with
    | .obj fields =>
      match objGet fields (propKey seg) with
      | some c => (canonWalk c rest).map fun cp => .pkey (propKey seg) :: cp
      | none => none
    | .arr l =>
      match arrIndex seg with
      | some n =>
        match l.get? n with
        | some c => (canonWalk c rest).map fun cp => .pidx n :: cp
        | none => none
      | none => none
    | _ => none

/-! ## `JSON.parse` and `JSON.stringify` -/

/-- JSON insignificant whitespace (RFC 8259: space, tab, LF, CR). -/
def jsonWs (c : Char) : Bool :=
  c = ' ' || c = '\t' || c = '\n' || c = '\r'

/-- Hex digit value, by code point: `0`-`9`, `a`-`f`, `A`-`F`. -/
def hexVal (c : Char) : Option Nat :=
  let n := c.toNat
  if 48 ≤ n && n ≤ 57 then some (n - 48)
  else if 97 ≤ n && n ≤ 102 then some (n - 87)
  else if 65 ≤ n && n ≤ 70 then some (n - 55)
  else none

/-- Strip an expected literal keyword from the front of the input. -/
def stripLit (lit : List Char) (cs : List Char) : Option (List Char) :=
  match lit, cs with
  | [], rest => some rest
  | l :: ls, c :: rest => if c = l then stripLit ls rest else none
  | _ :: _, [] => none

/-- Body of a JSON string literal after the opening quote.  `\uXXXX`
escapes become the character of that code (lone surrogate halves, which
`Char` cannot represent, are outside the modelled fragment); raw
control characters are rejected as `JSON.parse` rejects them. -/
def parseStringBody (fuel : Nat) (cs : List Char) : Option (String × List Char) :=
  match fuel with
  | 0 => none
  | fuel + 1 =>
    match cs with
    | [] => none
    | '"' :: rest => some ("", rest)
    | '\\' :: esc :: rest =>
      let simpleEsc : Option Char :=
        if esc = '"' then some '"'
        else if esc = '\\' then some '\\'
        else if esc = '/' then some '/'
        else if esc = 'b' then some '\x08'
        else if esc = 'f' then some '\x0c'
        else if esc = 'n' then some '\n'
        else if esc = 'r' then some '\r'
        else if esc = 't' then some '\t'
        else none
      match simpleEsc with
      | some c =>
        (parseStringBody fuel rest).map fun sr => (String.mk (c :: sr.1.data), sr.2)
      | none =>
        if esc = 'u' then
          match rest with
          | h1 :: h2 :: h3 :: h4 :: rest' =>
            match hexVal h1, hexVal h2, hexVal h3, hexVal h4 with
            | some a, some b, some c, some d =>
              let code := ((a * 16 + b) * 16 + c) * 16 + d
              (parseStringBody fuel rest').map fun sr =>
                (String.mk (Char.ofNat code :: sr.1.data), sr.2)
            | _, _, _, _ => none
          | _ => none
        else none
    | c :: rest =>
      if c.toNat < 32 then none
      else (parseStringBody fuel rest).map fun sr => (String.mk (c :: sr.1.data), sr.2)

/-- A JSON number literal: `-? (0 | [1-9][0-9]*) frac? exp?`.  Returns
the exact rational (see the header on doubles) and the remaining
input. -/
def parseJsonNumber (cs : List Char) : Option (ℚ × List Char) :=
  let (sign, cs1) :=
    match cs with
    | '-' :: r => ((-1 : Int), r)
    | _ => ((1 : Int), cs)
  let intDigits := cs1.takeWhile isDigitCh
  let rest1 := cs1.dropWhile isDigitCh
  let intOk : Bool :=
    match intDigits with
    | [] => false
    | ['0'] => true
    | c :: _ => c != '0'
  if !intOk then none
  else
    let (fracDigits, rest2, fracOk) :=
      match rest1 with
      | '.' :: r =>
        let fd := r.takeWhile isDigitCh
        (fd, r.dropWhile isDigitCh, !fd.isEmpty)
      | _ => ([], rest1, true)
    if !fracOk then none
    else
      match rest2 with
      | e :: r =>
        if e = 'e' || e = 'E' then
          let (esign, r') :=
            match r with
            | '+' :: r'' => ((1 : Int), r'')
            | '-' :: r'' => ((-1 : Int), r'')
            | _ => ((1 : Int), r)
          let eDigits := r'.takeWhile isDigitCh
          if eDigits.isEmpty then none
          else
            some (assembleRat sign (digitsToNat (intDigits ++ fracDigits))
              fracDigits.length (esign * (digitsToNat eDigits : Int)),
              r'.dropWhile isDigitCh)
        else some (assembleRat sign (digitsToNat (intDigits ++ fracDigits))
          fracDigits.length 0, rest2)
      | [] =>
        some (assembleRat sign (digitsToNat (intDigits ++ fracDigits))
          fracDigits.length 0, [])

mutual

/-- One JSON value at the head of the input (leading whitespace
allowed), with the remaining input. -/
def parseValue (fuel : Nat) (cs : List Char) : Option (JSValue × List Char) :=
  match fuel with
  | 0 => none
  | fuel + 1 =>
    let ws := cs.dropWhile jsonWs
    match stripLit "null".data ws with
    | some rest => some (.null, rest)
    | none =>
    match stripLit "true".data ws with
    | some rest => some (.bool true, rest)
    | none =>
    match stripLit "false".data ws with
    | some rest => some (.bool false, rest)
    | none =>
    match ws with
    | '"' :: rest => (parseStringBody (rest.length + 1) rest).map fun sr => (.str sr.1, sr.2)
    | '[' :: rest =>
      (match rest.dropWhile jsonWs with
       | ']' :: rest' => some (.arr [], rest')
       | _ => (parseArrayItems fuel rest).map fun ir => (.arr ir.1, ir.2))
    | '\x7b' :: rest =>
      (match rest.dropWhile jsonWs with
       | '\x7d' :: rest' => some (.obj [], rest')
       | _ =>
         (parseObjMembers fuel rest).map fun mr =>
           (.obj (mr.1.foldl (fun acc kv => objSet acc kv.1 kv.2) []), mr.2))
    | other => (parseJsonNumber other).map fun nr => (.num nr.1, nr.2)

/-- Comma-separated array elements up to the closing bracket. -/
def parseArrayItems (fuel : Nat) (cs : List Char) : Option (List JSValue × List Char) :=
  match fuel with
  | 0 => none
  | fuel + 1 =>
    match parseValue fuel cs with
    | none => none
    | some (v, rest) =>
      match rest.dropWhile jsonWs with
      | ',' :: rest' =>
        (parseArrayItems fuel rest').map fun ir => (v :: ir.1, ir.2)
      | ']' :: rest' => some ([v], rest')
      | _ => none

/-- Comma-separated `"key": value` members up to the closing brace, in
textual order, duplicates included; the caller folds them into an
object by successive property writes. -/
def parseObjMembers (fuel : Nat) (cs : List Char) :
    Option (List (String × JSValue) × List Char) :=
  match fuel with
  | 0 => none
  | fuel + 1 =>
    match cs.dropWhile jsonWs with
    | '"' :: rest =>
      match parseStringBody (rest.length + 1) rest with
      | none => none
      | some (k, rest1) =>
        match rest1.dropWhile jsonWs with
        | ':' :: rest2 =>
          match parseValue fuel rest2 with
          | none => none
          | some (v, rest3) =>
            match rest3.dropWhile jsonWs with
            | ',' :: rest4 =>
              (parseObjMembers fuel rest4).map fun mr => ((k, v) :: mr.1, mr.2)
            | '\x7d' :: rest4 => some ([(k, v)], rest4)
            | _ => none
        | _ => none
    | _ => none

end

/-- `JSON.parse(text)`: the whole input must be one JSON value plus
whitespace. -/
def parseJson (text : String) : Option JSValue :=
  match parseValue (text.length * 2 + 4) text.data with
  | none => none
  | some (v, rest) => if (rest.dropWhile jsonWs).isEmpty then some v else none

/-- Decimal rendering of a number for output: exact for integral
values; JavaScript's shortest-round-trip formatting of non-integral
doubles is outside the modelled fragment (no claim depends on it). -/
def jsNumToString (q : ℚ) : String :=
  if q.den = 1 then toString q.num
  else toString q.num ++ "/" ++ toString q.den

/-- String-literal escaping of `JSON.stringify`. -/
def jsonEscapeChar (c : Char) : String :=
  if c = '"' then "\\\""
  else if c = '\\' then "\\\\"
  else if c = '\n' then "\\n"
  else if c = '\r' then "\\r"
  else if c = '\t' then "\\t"
  else if c = '\x08' then "\\b"
  else if c = '\x0c' then "\\f"
  else if c.toNat < 32 then
    "\\u00" ++ String.mk [hexDigit (c.toNat / 16), hexDigit (c.toNat % 16)]
  else String.mk [c]
where
  hexDigit (n : Nat) : Char :=
    Char.ofNat (if n < 10 then 48 + n else 87 + n)

/-- Quoted JSON string literal. -/
def jsonQuote (s : String) : String :=
  "\"" ++ String.join (s.data.map jsonEscapeChar) ++ "\""

/-- `indent` copies of the two-space unit. -/
def indentStr (depth : Nat) : String :=
  String.mk (List.replicate (depth * 2) ' ')

mutual

/-- `JSON.stringify(v, null, 2)` at nesting depth `depth`. -/
def stringifyAt (depth : Nat) (v : JSValue) : String :=
  match v with
  | .null => "null"
  | .bool b => cond b "true" "false"
  | .num q => jsNumToString q
  | .str s => jsonQuote s
  | .arr [] => "[]"
  | .arr (v :: rest) =>
    "[\n" ++ indentStr (depth + 1) ++ stringifyItems (depth + 1) v rest ++
      "\n" ++ indentStr depth ++ "]"
  | .obj [] => "\x7b\x7d"
  | .obj ((k, w) :: rest) =>
    "\x7b\n" ++ indentStr (depth + 1) ++ stringifyFields (depth + 1) k w rest ++
      "\n" ++ indentStr depth ++ "\x7d"
termination_by sizeOf v

/-- Array items joined by `",\n" ++ indent`. -/
def stringifyItems (depth : Nat) (v : JSValue) (l : List JSValue) : String :=
  match l with
  | [] => stringifyAt depth v
  | w :: rest =>
    stringifyAt depth v ++ ",\n" ++ indentStr depth ++ stringifyItems depth w rest
termination_by sizeOf v + sizeOf l

/-- Object members `"key": value` joined by `",\n" ++ indent`. -/
def stringifyFields (depth : Nat) (k : String) (v : JSValue)
    (l : List (String × JSValue)) : String :=
  match l with
  | [] => jsonQuote k ++ ": " ++ stringifyAt depth v
  | (k2, v2) :: rest =>
    jsonQuote k ++ ": " ++ stringifyAt depth v ++ ",\n" ++ indentStr depth ++
      stringifyFields depth k2 v2 rest
termination_by sizeOf v + sizeOf l

end

/-- `JSON.stringify(updatedJson, null, 2)`. -/
def jsonStringify (v : JSValue) : String :=
  stringifyAt 0 v

/-! ## The `NodeModal` edit session -/

mutual

/-- JavaScript `String(v)` on a parsed JSON value (number formatting as
in `jsNumToString`). -/
def jsString (v : JSValue) : String :=
  match v with
  | .null => "null"
  | .bool b => cond b "true" "false"
  | .num q => jsNumToString q
  | .str s => s
  | .arr l => jsArrayString l
  | .obj _ => "[object Object]"
termination_by sizeOf v

/-- `Array.prototype.toString`: elements joined by `","`, with `null`
rendering as the empty string. -/
def jsArrayString (l : List JSValue) : String :=
  match l with
  | [] => ""
  | [.null] => ""
  | [v] => jsString v
  | .null :: rest => "," ++ jsArrayString rest
  | v :: rest => jsString v ++ "," ++ jsArrayString rest
termination_by sizeOf l

end

/-- `String(value ?? "")` from the edit-mode seeding effect: `??`
replaces `null` by `""` before `String` applies. -/
def seedString (v : JSValue) : String :=
  match v with
  | .null => ""
  | v => jsString v

/-- The seeding loop of the `[isEditing, nodeData]` effect: for each
entry of `normalizeNodeData`'s output, write the stringified value into
the fresh `stringValues` record. -/
def seedFields (nodeObj : List (String × JSValue)) : List (String × String) :=
  nodeObj.foldl (fun acc kv => objSet acc kv.1 (seedString kv.2)) []

/-- The selected node as the graph store supplies it: its flattened
rows (`nodeData.text ?? []`) and its path from the document root. -/
structure NodeData where
  text : List Row
  path : List Seg

/-- The state the `NodeModal` component closes over: the three React
state cells (`isEditing`, `editedValues`, `originalValues`) together
with the external document accessor's text (`useJson.getJson` /
`useFile.setContents`) and its dirty flag. -/
structure ModalState where
  isEditing : Bool
  editedValues : List (String × String)
  originalValues : List (String × String)
  documentText : String
  hasChanges : Bool

/-- `handleEditClick` plus the `[isEditing, nodeData]` effect: entering
edit mode seeds `editedValues` and the cancel snapshot
`originalValues` from the node's normalized rows. -/
def beginEdit (nd : NodeData) (st : ModalState) : ModalState :=
  { st with
    isEditing := true
    editedValues := seedFields (normalizeNodeData nd.text)
    originalValues := seedFields (normalizeNodeData nd.text) }

/-- `handleValueChange(key, value)`:
`setEditedValues(prev => ({ ...prev, [key]: value }))` — a property
write on the copy of `prev` (see the header note on integer-like key
enumeration order). -/
def handleValueChange (key : String) (value : String) (st : ModalState) : ModalState :=
  { st with editedValues := objSet st.editedValues key value }

/-- `handleSave()`: with no selected node, do nothing; otherwise parse
the current document text, patch at the node's path with the edited
values, pretty-print, store through `setContents` with the dirty flag,
and leave edit mode.  Any throw (`JSON.parse` failure or a `TypeError`
inside `updateJsonAtPath`) is caught by the surrounding
`try`/`catch`, which only logs: the state is left untouched. -/
def handleSave (nodeData : Option NodeData) (st : ModalState) : ModalState :=
  match nodeData with
  | none => st
  | some nd =>
    match parseJson st.documentText with
    | none => st
    | some jsonObj =>
      match updateJsonAtPath jsonObj nd.path st.editedValues with
      | .error _ => st
      | .ok updatedJson =>
        { st with
          documentText := jsonStringify updatedJson
          hasChanges := true
          isEditing := false }

/-- `handleCancel()`: restore the cancel snapshot and leave edit
mode. -/
def handleCancel (st : ModalState) : ModalState :=
  { st with editedValues := st.originalValues, isEditing := false }

/-- The `[opened]` effect on closing the modal: reset everything. -/
def closeModal (st : ModalState) : ModalState :=
  { st with isEditing := false, editedValues := [], originalValues := [] }

/-! ## Association-list lemmas -/

@[simp] theorem objKeys_nil {α : Type} : objKeys ([] : List (String × α)) = [] := rfl

@[simp] theorem objKeys_cons {α : Type} (k : String) (v : α) (t : List (String × α)) :
    objKeys ((k, v) :: t) = k :: objKeys t := rfl

@[simp] theorem objGet_nil {α : Type} (k : String) :
    objGet ([] : List (String × α)) k = none := rfl

theorem objGet_cons {α : Type} (k0 k : String) (v : α) (t : List (String × α)) :
    objGet ((k0, v) :: t) k = if k0 = k then some v else objGet t k := rfl

theorem objSet_nil {α : Type} (k : String) (v : α) :
    objSet ([] : List (String × α)) k v = [(k, v)] := rfl

theorem objSet_cons {α : Type} (k0 k : String) (v0 v : α) (t : List (String × α)) :
    objSet ((k0, v0) :: t) k v =
      if k0 = k then (k, v) :: t else (k0, v0) :: objSet t k v := rfl

theorem objModify_cons {α : Type} (k0 k : String) (v0 : α) (f : α → α)
    (t : List (String × α)) :
    objModify ((k0, v0) :: t) k f =
      if k0 = k then (k0, f v0) :: t else (k0, v0) :: objModify t k f := rfl

theorem objGet_objSet_self {α : Type} (l : List (String × α)) (k : String) (v : α) :
    objGet (objSet l k v) k = some v := by
  induction l with
  | nil => simp [objSet_nil, objGet_cons]
  | cons h t ih =>
    obtain ⟨k0, v0⟩ := h
    by_cases hk : k0 = k
    · simp [objSet_cons, objGet_cons, hk]
    · simp [objSet_cons, objGet_cons, hk, ih]

theorem objGet_objSet_ne {α : Type} (l : List (String × α)) (k k' : String) (v : α)
    (h : k' ≠ k) : objGet (objSet l k v) k' = objGet l k' := by
  have hne : k ≠ k' := Ne.symm h
  induction l with
  | nil => simp [objSet_nil, objGet_cons, hne]
  | cons hd t ih =>
    obtain ⟨k0, v0⟩ := hd
    by_cases hk : k0 = k
    · subst hk
      simp [objSet_cons, objGet_cons, hne]
    · simp [objSet_cons, objGet_cons, hk, ih]

theorem objGet_eq_none_iff {α : Type} (l : List (String × α)) (k : String) :
    objGet l k = none ↔ k ∉ objKeys l := by
  induction l with
  | nil => simp
  | cons hd t ih =>
    obtain ⟨k0, v0⟩ := hd
    by_cases hk : k0 = k
    · subst hk
      simp [objGet_cons]
    · simp [objGet_cons, hk, ih, Ne.symm hk]

theorem objKeys_objSet_mem {α : Type} (l : List (String × α)) (k : String) (v : α)
    (h : k ∈ objKeys l) : objKeys (objSet l k v) = objKeys l := by
  induction l with
  | nil => simp at h
  | cons hd t ih =>
    obtain ⟨k0, v0⟩ := hd
    by_cases hk : k0 = k
    · simp [objSet_cons, hk]
    · have : k ∈ objKeys t := by
        rcases (by simpa using h) with h' | h'
        · exact absurd h'.symm hk
        · exact h'
      simp [objSet_cons, hk, ih this]

theorem objKeys_objSet_notMem {α : Type} (l : List (String × α)) (k : String) (v : α)
    (h : k ∉ objKeys l) : objKeys (objSet l k v) = objKeys l ++ [k] := by
  induction l with
  | nil => simp [objSet_nil]
  | cons hd t ih =>
    obtain ⟨k0, v0⟩ := hd
    have hk : k0 ≠ k := by
      intro hh
      exact h (by simp [hh])
    have ht : k ∉ objKeys t := fun hh => h (by simp [hh])
    simp [objSet_cons, hk, ih ht]

theorem objGet_objModify_self {α : Type} (l : List (String × α)) (k : String) (f : α → α) :
    objGet (objModify l k f) k = (objGet l k).map f := by
  induction l with
  | nil => simp [objModify]
  | cons hd t ih =>
    obtain ⟨k0, v0⟩ := hd
    by_cases hk : k0 = k
    · simp [objModify_cons, objGet_cons, hk]
    · simp [objModify_cons, objGet_cons, hk, ih]

theorem objGet_objModify_ne {α : Type} (l : List (String × α)) (k k' : String)
    (f : α → α) (h : k' ≠ k) : objGet (objModify l k f) k' = objGet l k' := by
  induction l with
  | nil => simp [objModify]
  | cons hd t ih =>
    obtain ⟨k0, v0⟩ := hd
    by_cases hk : k0 = k
    · subst hk
      simp [objModify_cons, objGet_cons, Ne.symm h]
    · simp [objModify_cons, objGet_cons, hk, ih]

theorem get?_arrModify_self {α : Type} (l : List α) (n : Nat) (f : α → α) :
    (arrModify l n f).get? n = (l.get? n).map f := by
  induction l generalizing n with
  | nil => simp [arrModify]
  | cons hd t ih =>
    cases n with
    | zero => simp [arrModify]
    | succ m => simpa [arrModify] using ih m

theorem get?_arrModify_ne {α : Type} (l : List α) (n m : Nat) (f : α → α)
    (h : m ≠ n) : (arrModify l n f).get? m = l.get? m := by
  induction l generalizing n m with
  | nil => simp [arrModify]
  | cons hd t ih =>
    cases n with
    | zero =>
      cases m with
      | zero => exact absurd rfl h
      | succ m' => simp [arrModify]
    | succ n' =>
      cases m with
      | zero => simp [arrModify]
      | succ m' => simpa [arrModify] using ih n' m' (by omega)

/-! ## `applyEdits` lemmas -/

theorem objGet_applyEdits_notMem (fs : List (String × JSValue))
    (edits : List (String × String)) (k : String)
    (h : k ∉ edits.map Prod.fst) :
    objGet (applyEdits fs edits) k = objGet fs k := by
  induction edits generalizing fs with
  | nil => rfl
  | cons e rest ih =>
    obtain ⟨k0, s0⟩ := e
    have hk : k ≠ k0 := by
      intro hh
      exact h (by simp [hh])
    have hrest : k ∉ rest.map Prod.fst := fun hh => h (by simp [hh])
    calc objGet (applyEdits fs ((k0, s0) :: rest)) k
        = objGet (applyEdits (objSet fs k0 (coerceField (objGet fs k0) s0)) rest) k := rfl
      _ = objGet (objSet fs k0 (coerceField (objGet fs k0) s0)) k := ih _ hrest
      _ = objGet fs k := objGet_objSet_ne _ _ _ _ hk

theorem objGet_applyEdits_mem (fs : List (String × JSValue))
    (edits : List (String × String)) (k : String) (s : String)
    (hnd : (edits.map Prod.fst).Nodup) (hmem : (k, s) ∈ edits) :
    objGet (applyEdits fs edits) k = some (coerceField (objGet fs k) s) := by
  induction edits generalizing fs with
  | nil => simp at hmem
  | cons e rest ih =>
    obtain ⟨k0, s0⟩ := e
    rcases List.mem_cons.mp hmem with heq | hrest
    · obtain ⟨hk, hs⟩ := Prod.mk.injEq k s k0 s0 ▸ heq
      subst hk
      subst hs
      have hnotin : k ∉ rest.map Prod.fst := (List.nodup_cons.mp hnd).1
      calc objGet (applyEdits fs ((k, s) :: rest)) k
          = objGet (applyEdits (objSet fs k (coerceField (objGet fs k) s)) rest) k := rfl
        _ = objGet (objSet fs k (coerceField (objGet fs k) s)) k :=
            objGet_applyEdits_notMem _ _ _ hnotin
        _ = some (coerceField (objGet fs k) s) := objGet_objSet_self _ _ _
    · have hk0 : k ≠ k0 := by
        intro hh
        subst hh
        exact (List.nodup_cons.mp hnd).1 (by simpa using ⟨s, hrest⟩)
      have hnd2 : (rest.map Prod.fst).Nodup := (List.nodup_cons.mp hnd).2
      calc objGet (applyEdits fs ((k0, s0) :: rest)) k
          = objGet (applyEdits (objSet fs k0 (coerceField (objGet fs k0) s0)) rest) k := rfl
        _ = some (coerceField (objGet (objSet fs k0 (coerceField (objGet fs k0) s0)) k) s) :=
            ih _ hnd2 hrest
        _ = some (coerceField (objGet fs k) s) := by
            rw [objGet_objSet_ne _ _ _ _ hk0]

/-! ## Walk and canonical-position lemmas -/

/-- A container value (non-array objects and arrays), the only values
through which a successful mutation chain can pass. -/
def isContainer : JSValue → Bool
  | .obj _ => true
  | .arr _ => true
  | _ => false

theorem posLe_nil (q : List PSeg) : PosLe [] q := ⟨q, rfl⟩

theorem posLe_cons_iff (x y : PSeg) (a b : List PSeg) :
    PosLe (x :: a) (y :: b) ↔ x = y ∧ PosLe a b := by
  constructor
  · rintro ⟨t, ht⟩
    have hx : x = y := by injection ht
    have ha : a ++ t = b := by injection ht
    exact ⟨hx, t, ha⟩
  · rintro ⟨hx, t, ht⟩
    exact ⟨t, by rw [hx, List.cons_append, ht]⟩

theorem jsGet_null (seg : Seg) : jsGet .null seg = none := rfl

theorem jsGet_num (q : ℚ) (seg : Seg) : jsGet (.num q) seg = none := rfl

theorem jsGet_bool (b : Bool) (seg : Seg) : jsGet (.bool b) seg = none := rfl

theorem jsGet_obj (fields : List (String × JSValue)) (seg : Seg) :
    jsGet (.obj fields) seg = objGet fields (propKey seg) := rfl

theorem jsGet_arr_some (l : List JSValue) (seg : Seg) (n : Nat)
    (h : arrIndex seg = some n) : jsGet (.arr l) seg = l.get? n := by
  simp [jsGet, h]

theorem jsGet_arr_none (l : List JSValue) (seg : Seg)
    (h : arrIndex seg = none) : jsGet (.arr l) seg = none := by
  simp [jsGet, h]

theorem jsGet_str_shape (s : String) (seg : Seg) (c : JSValue)
    (h : jsGet (.str s) seg = some c) : ∃ cc, c = .str cc := by
  rcases hn : arrIndex seg with _ | n
  · simp [jsGet, hn] at h
  · rcases hc : s.data.get? n with _ | ch
    · simp only [jsGet, hn, Option.some_bind] at h
      rw [hc] at h
      simp at h
    · simp only [jsGet, hn, Option.some_bind] at h
      rw [hc] at h
      have h3 : JSValue.str (String.mk [ch]) = c := by injection h
      exact ⟨_, h3.symm⟩

theorem jsIndex_undef (seg : Seg) : jsIndex none seg = .error .typeError := rfl

theorem jsIndex_null (seg : Seg) : jsIndex (some .null) seg = .error .typeError := rfl

theorem jsIndex_num (q : ℚ) (seg : Seg) : jsIndex (some (.num q)) seg = .ok none := rfl

theorem jsIndex_bool (b : Bool) (seg : Seg) : jsIndex (some (.bool b)) seg = .ok none := rfl

theorem jsIndex_str (s : String) (seg : Seg) :
    jsIndex (some (.str s)) seg = .ok (jsGet (.str s) seg) := rfl

theorem jsIndex_obj (fields : List (String × JSValue)) (seg : Seg) :
    jsIndex (some (.obj fields)) seg = .ok (jsGet (.obj fields) seg) := rfl

theorem jsIndex_arr (l : List JSValue) (seg : Seg) :
    jsIndex (some (.arr l)) seg = .ok (jsGet (.arr l) seg) := rfl

theorem walkParent_nil (cur : Option JSValue) : walkParent cur [] = .ok cur := rfl

theorem walkParent_cons_err (cur : Option JSValue) (seg : Seg) (rest : List Seg)
    (e : PatchError) (h : jsIndex cur seg = .error e) :
    walkParent cur (seg :: rest) = .error e := by
  simp [walkParent, h]

theorem walkParent_cons_ok (cur : Option JSValue) (seg : Seg) (rest : List Seg)
    (next : Option JSValue) (h : jsIndex cur seg = .ok next) :
    walkParent cur (seg :: rest) = walkParent next rest := by
  simp [walkParent, h]

theorem walkParent_none_ne_some (segs : List Seg) (p : JSValue) :
    walkParent none segs ≠ .ok (some p) := by
  cases segs with
  | nil => simp [walkParent_nil]
  | cons seg rest => simp [walkParent_cons_err none seg rest _ (jsIndex_undef seg)]

theorem canonWalk_nil (v : JSValue) : canonWalk v [] = some [] := rfl

theorem canonWalk_obj_some (fields : List (String × JSValue)) (seg : Seg)
    (rest : List Seg) (c : JSValue) (h : objGet fields (propKey seg) = some c) :
    canonWalk (.obj fields) (seg :: rest) =
      (canonWalk c rest).map fun cp => .pkey (propKey seg) :: cp := by
  simp [canonWalk, h]

theorem canonWalk_arr_some (l : List JSValue) (seg : Seg) (rest : List Seg)
    (n : Nat) (c : JSValue) (hn : arrIndex seg = some n) (hc : l.get? n = some c) :
    canonWalk (.arr l) (seg :: rest) =
      (canonWalk c rest).map fun cp => .pidx n :: cp := by
  simp only [canonWalk, hn]
  rw [hc]

theorem getAtPos_nil (v : JSValue) : getAtPos v [] = some v := rfl

theorem getAtPos_obj (fields : List (String × JSValue)) (k : String)
    (rest : List PSeg) :
    getAtPos (.obj fields) (.pkey k :: rest) =
      (objGet fields k).bind fun c => getAtPos c rest := rfl

theorem getAtPos_arr (l : List JSValue) (n : Nat) (rest : List PSeg) :
    getAtPos (.arr l) (.pidx n :: rest) =
      (l.get? n).bind fun c => getAtPos c rest := rfl

theorem getAtPos_obj_pidx (fields : List (String × JSValue)) (n : Nat)
    (rest : List PSeg) : getAtPos (.obj fields) (.pidx n :: rest) = none := rfl

theorem getAtPos_arr_pkey (l : List JSValue) (k : String) (rest : List PSeg) :
    getAtPos (.arr l) (.pkey k :: rest) = none := rfl

theorem setAtPath_nil (v newV : JSValue) : setAtPath v [] newV = newV := rfl

theorem setAtPath_obj (fields : List (String × JSValue)) (seg : Seg)
    (rest : List Seg) (newV : JSValue) :
    setAtPath (.obj fields) (seg :: rest) newV =
      .obj (objModify fields (propKey seg) fun c => setAtPath c rest newV) := rfl

theorem setAtPath_arr_some (l : List JSValue) (seg : Seg) (rest : List Seg)
    (n : Nat) (newV : JSValue) (hn : arrIndex seg = some n) :
    setAtPath (.arr l) (seg :: rest) newV =
      .arr (arrModify l n fun c => setAtPath c rest newV) := by
  simp [setAtPath, hn]

/-- Walking onward from a string only ever reaches strings: each string
index read yields a one-character string or `undefined`. -/
theorem walkParent_str (segs : List Seg) :
    ∀ s p, walkParent (some (.str s)) segs = .ok (some p) → ∃ s', p = .str s' := by
  induction segs with
  | nil =>
    intro s p h
    rw [walkParent_nil] at h
    have h1 : some (JSValue.str s) = some p := by injection h
    have h2 : JSValue.str s = p := by injection h1
    exact ⟨s, h2.symm⟩
  | cons seg rest ih =>
    intro s p h
    rw [walkParent_cons_ok _ _ _ _ (jsIndex_str s seg)] at h
    rcases hg : jsGet (.str s) seg with _ | c
    · rw [hg] at h
      exact absurd h (walkParent_none_ne_some rest p)
    · rw [hg] at h
      obtain ⟨cc, rfl⟩ := jsGet_str_shape s seg c hg
      exact ih cc p h

/-- If the walk over `pre` succeeds and the final access finds a
non-array object, the whole chain went through containers with present
entries, so the full path has a canonical position, whose subtree is
that object. -/
theorem walk_canonFull (pre : List Seg) :
    ∀ (v p : JSValue) (last : Seg) (tfs : List (String × JSValue)),
      walkParent (some v) pre = .ok (some p) →
      jsGet p last = some (.obj tfs) →
      ∃ cp, canonWalk v (pre ++ [last]) = some cp ∧
        getAtPos v cp = some (.obj tfs) := by
  induction pre with
  | nil =>
    intro v p last tfs hw ht
    have hvp : v = p := by
      rw [walkParent_nil] at hw
      injection (by injection hw : some v = some p)
    subst hvp
    cases v with
    | obj fields =>
      rw [jsGet_obj] at ht
      refine ⟨[.pkey (propKey last)], ?_, ?_⟩
      · rw [List.nil_append, canonWalk_obj_some fields last [] _ ht, canonWalk_nil]
        rfl
      · rw [getAtPos_obj, ht]
        rfl
    | arr l =>
      rcases hn : arrIndex last with _ | n
      · rw [jsGet_arr_none l last hn] at ht
        cases ht
      · rw [jsGet_arr_some l last n hn] at ht
        refine ⟨[.pidx n], ?_, ?_⟩
        · rw [List.nil_append, canonWalk_arr_some l last [] n _ hn ht, canonWalk_nil]
          rfl
        · rw [getAtPos_arr, ht]
          rfl
    | str s =>
      obtain ⟨cc, hcc⟩ := jsGet_str_shape s last _ ht
      cases hcc
    | null => cases ht
    | num q => cases ht
    | bool b => cases ht
  | cons seg rest ih =>
    intro v p last tfs hw ht
    cases v with
    | null =>
      rw [walkParent_cons_err _ _ _ _ (jsIndex_null seg)] at hw
      cases hw
    | num q =>
      rw [walkParent_cons_ok _ _ _ _ (jsIndex_num q seg)] at hw
      exact absurd hw (walkParent_none_ne_some rest p)
    | bool b =>
      rw [walkParent_cons_ok _ _ _ _ (jsIndex_bool b seg)] at hw
      exact absurd hw (walkParent_none_ne_some rest p)
    | str s =>
      exfalso
      rw [walkParent_cons_ok _ _ _ _ (jsIndex_str s seg)] at hw
      rcases hg : jsGet (.str s) seg with _ | c
      · rw [hg] at hw
        exact absurd hw (walkParent_none_ne_some rest p)
      · rw [hg] at hw
        obtain ⟨cc, rfl⟩ := jsGet_str_shape s seg c hg
        obtain ⟨s', rfl⟩ := walkParent_str rest cc p hw
        obtain ⟨cc', hcc'⟩ := jsGet_str_shape s' last _ ht
        cases hcc'
    | obj fields =>
      rw [walkParent_cons_ok _ _ _ _ (jsIndex_obj fields seg), jsGet_obj] at hw
      rcases hg : objGet fields (propKey seg) with _ | c
      · rw [hg] at hw
        exact absurd hw (walkParent_none_ne_some rest p)
      · rw [hg] at hw
        obtain ⟨cp, hcw, hgp⟩ := ih c p last tfs hw ht
        refine ⟨.pkey (propKey seg) :: cp, ?_, ?_⟩
        · rw [List.cons_append, canonWalk_obj_some fields seg _ _ hg, hcw]
          rfl
        · rw [getAtPos_obj, hg]
          exact hgp
    | arr l =>
      rw [walkParent_cons_ok _ _ _ _ (jsIndex_arr l seg)] at hw
      rcases hn : arrIndex seg with _ | n
      · rw [jsGet_arr_none l seg hn] at hw
        exact absurd hw (walkParent_none_ne_some rest p)
      · rw [jsGet_arr_some l seg n hn] at hw
        rcases hc : l.get? n with _ | c
        · rw [hc] at hw
          exact absurd hw (walkParent_none_ne_some rest p)
        · rw [hc] at hw
          obtain ⟨cp, hcw, hgp⟩ := ih c p last tfs hw ht
          refine ⟨.pidx n :: cp, ?_, ?_⟩
          · rw [List.cons_append, canonWalk_arr_some l seg _ n _ hn hc, hcw]
            rfl
          · rw [getAtPos_arr, hc]
            exact hgp

/-- Frame property of the rebuild: replacing the subtree at a resolved
walk position changes nothing at any position that neither contains nor
lies inside it. -/
theorem getAtPos_setAtPath_off (segs : List Seg) :
    ∀ (v : JSValue) (cp : List PSeg) (newV : JSValue) (q : List PSeg),
      canonWalk v segs = some cp → ¬ PosLe cp q → ¬ PosLe q cp →
      getAtPos (setAtPath v segs newV) q = getAtPos v q := by
  induction segs with
  | nil =>
    intro v cp newV q hc h1 h2
    rw [canonWalk_nil] at hc
    have : ([] : List PSeg) = cp := by injection hc
    subst this
    exact absurd (posLe_nil q) h1
  | cons seg rest ih =>
    intro v cp newV q hc h1 h2
    cases v with
    | null => cases hc
    | num qq => cases hc
    | bool b => cases hc
    | str s => cases hc
    | obj fields =>
      rcases hg : objGet fields (propKey seg) with _ | c
      · rw [show canonWalk (.obj fields) (seg :: rest) = none by
          simp [canonWalk, hg]] at hc
        cases hc
      · rw [canonWalk_obj_some fields seg rest c hg] at hc
        rcases hcw : canonWalk c rest with _ | cp'
        · rw [hcw] at hc
          cases hc
        · rw [hcw] at hc
          have hcp : PSeg.pkey (propKey seg) :: cp' = cp := by
            simpa using hc
          subst hcp
          rw [setAtPath_obj]
          cases q with
          | nil => exact absurd (posLe_nil _) h2
          | cons qh qt =>
            cases qh with
            | pidx n => rw [getAtPos_obj_pidx, getAtPos_obj_pidx]
            | pkey k' =>
              by_cases hk : k' = propKey seg
              · subst hk
                rw [getAtPos_obj, getAtPos_obj, objGet_objModify_self, hg]
                simp only [Option.map_some, Option.some_bind]
                refine ih c cp' newV qt hcw ?_ ?_
                · intro hle
                  exact h1 ((posLe_cons_iff _ _ _ _).mpr ⟨rfl, hle⟩)
                · intro hle
                  exact h2 ((posLe_cons_iff _ _ _ _).mpr ⟨rfl, hle⟩)
              · rw [getAtPos_obj, getAtPos_obj, objGet_objModify_ne _ _ _ _ hk]
    | arr l =>
      rcases hn : arrIndex seg with _ | n
      · rw [show canonWalk (.arr l) (seg :: rest) = none by
          simp [canonWalk, hn]] at hc
        cases hc
      · rcases hget : l.get? n with _ | c
        · rw [show canonWalk (.arr l) (seg :: rest) = none by
            simp only [canonWalk, hn]
            rw [hget]] at hc
          cases hc
        · rw [canonWalk_arr_some l seg rest n c hn hget] at hc
          rcases hcw : canonWalk c rest with _ | cp'
          · rw [hcw] at hc
            cases hc
          · rw [hcw] at hc
            have hcp : PSeg.pidx n :: cp' = cp := by
              simpa using hc
            subst hcp
            rw [setAtPath_arr_some l seg rest n newV hn]
            cases q with
            | nil => exact absurd (posLe_nil _) h2
            | cons qh qt =>
              cases qh with
              | pkey k' => rw [getAtPos_arr_pkey, getAtPos_arr_pkey]
              | pidx m =>
                by_cases hm : m = n
                · subst hm
                  rw [getAtPos_arr, getAtPos_arr, get?_arrModify_self, hget]
                  simp only [Option.map_some, Option.some_bind]
                  refine ih c cp' newV qt hcw ?_ ?_
                  · intro hle
                    exact h1 ((posLe_cons_iff _ _ _ _).mpr ⟨rfl, hle⟩)
                  · intro hle
                    exact h2 ((posLe_cons_iff _ _ _ _).mpr ⟨rfl, hle⟩)
                · rw [getAtPos_arr, getAtPos_arr, get?_arrModify_ne _ _ _ _ hm]

/-- Reading at or below the rebuilt position gives the new subtree. -/
theorem getAtPos_setAtPath_at (segs : List Seg) :
    ∀ (v : JSValue) (cp : List PSeg) (newV : JSValue) (q : List PSeg),
      canonWalk v segs = some cp →
      getAtPos (setAtPath v segs newV) (cp ++ q) = getAtPos newV q := by
  induction segs with
  | nil =>
    intro v cp newV q hc
    rw [canonWalk_nil] at hc
    have : ([] : List PSeg) = cp := by injection hc
    subst this
    rw [setAtPath_nil, List.nil_append]
  | cons seg rest ih =>
    intro v cp newV q hc
    cases v with
    | null => cases hc
    | num qq => cases hc
    | bool b => cases hc
    | str s => cases hc
    | obj fields =>
      rcases hg : objGet fields (propKey seg) with _ | c
      · rw [show canonWalk (.obj fields) (seg :: rest) = none by
          simp [canonWalk, hg]] at hc
        cases hc
      · rw [canonWalk_obj_some fields seg rest c hg] at hc
        rcases hcw : canonWalk c rest with _ | cp'
        · rw [hcw] at hc
          cases hc
        · rw [hcw] at hc
          have hcp : PSeg.pkey (propKey seg) :: cp' = cp := by
            simpa using hc
          subst hcp
          rw [setAtPath_obj, List.cons_append, getAtPos_obj,
            objGet_objModify_self, hg]
          exact ih c cp' newV q hcw
    | arr l =>
      rcases hn : arrIndex seg with _ | n
      · rw [show canonWalk (.arr l) (seg :: rest) = none by
          simp [canonWalk, hn]] at hc
        cases hc
      · rcases hget : l.get? n with _ | c
        · rw [show canonWalk (.arr l) (seg :: rest) = none by
            simp only [canonWalk, hn]
            rw [hget]] at hc
          cases hc
        · rw [canonWalk_arr_some l seg rest n c hn hget] at hc
          rcases hcw : canonWalk c rest with _ | cp'
          · rw [hcw] at hc
            cases hc
          · rw [hcw] at hc
            have hcp : PSeg.pidx n :: cp' = cp := by
              simpa using hc
            subst hcp
            rw [setAtPath_arr_some l seg rest n newV hn, List.cons_append,
              getAtPos_arr, get?_arrModify_self, hget]
            exact ih c cp' newV q hcw


/-! ## Patcher case analysis -/

/-- Scalar values (including strings): the possible non-container,
non-null parents. -/
def isScalar : JSValue → Bool
  | .num _ => true
  | .bool _ => true
  | .str _ => true
  | _ => false

theorem jsIndex_some_of_ne_null (p : JSValue) (seg : Seg) (h : p ≠ .null) :
    jsIndex (some p) seg = .ok (jsGet p seg) := by
  cases p with
  | null => exact absurd rfl h
  | num q => rfl
  | bool b => rfl
  | str s => rfl
  | arr l => rfl
  | obj fields => rfl

theorem jsIndex_ok_inv (cur : Option JSValue) (seg : Seg) (t : Option JSValue)
    (h : jsIndex cur seg = .ok t) :
    ∃ v, cur = some v ∧ v ≠ .null ∧ jsGet v seg = t := by
  cases cur with
  | none => cases h
  | some v =>
    cases v with
    | null => cases h
    | num q => exact ⟨_, rfl, (by intro hh; cases hh), (by injection h)⟩
    | bool b => exact ⟨_, rfl, (by intro hh; cases hh), (by injection h)⟩
    | str s => exact ⟨_, rfl, (by intro hh; cases hh), (by injection h)⟩
    | arr l => exact ⟨_, rfl, (by intro hh; cases hh), (by injection h)⟩
    | obj fields => exact ⟨_, rfl, (by intro hh; cases hh), (by injection h)⟩

theorem walkParent_error_typeError (segs : List Seg) :
    ∀ (cur : Option JSValue) (e : PatchError),
      walkParent cur segs = .error e → e = .typeError := by
  induction segs with
  | nil =>
    intro cur e h
    rw [walkParent_nil] at h
    cases h
  | cons seg rest ih =>
    intro cur e h
    cases cur with
    | none =>
      rw [walkParent_cons_err _ _ _ _ (jsIndex_undef seg)] at h
      injection h with h
      exact h.symm
    | some v =>
      cases v with
      | null =>
        rw [walkParent_cons_err _ _ _ _ (jsIndex_null seg)] at h
        injection h with h
        exact h.symm
      | num q =>
        rw [walkParent_cons_ok _ _ _ _ (jsIndex_num q seg)] at h
        exact ih _ _ h
      | bool b =>
        rw [walkParent_cons_ok _ _ _ _ (jsIndex_bool b seg)] at h
        exact ih _ _ h
      | str s2 =>
        rw [walkParent_cons_ok _ _ _ _ (jsIndex_str s2 seg)] at h
        exact ih _ _ h
      | arr l =>
        rw [walkParent_cons_ok _ _ _ _ (jsIndex_arr l seg)] at h
        exact ih _ _ h
      | obj fields =>
        rw [walkParent_cons_ok _ _ _ _ (jsIndex_obj fields seg)] at h
        exact ih _ _ h

theorem updateJsonAtPath_walk_err (json : JSValue) (seg : Seg) (rest : List Seg)
    (edits : List (String × String)) (e : PatchError)
    (hw : walkParent (some json) ((seg :: rest).dropLast) = .error e) :
    updateJsonAtPath json (seg :: rest) edits = .error e := by
  simp only [updateJsonAtPath, hw]

theorem updateJsonAtPath_target_err (json : JSValue) (seg : Seg) (rest : List Seg)
    (edits : List (String × String)) (parent : Option JSValue) (e : PatchError)
    (hw : walkParent (some json) ((seg :: rest).dropLast) = .ok parent)
    (ht : jsIndex parent ((seg :: rest).getLast (List.cons_ne_nil seg rest)) = .error e) :
    updateJsonAtPath json (seg :: rest) edits = .error e := by
  simp only [updateJsonAtPath, hw, ht]

theorem updateJsonAtPath_target_obj (json : JSValue) (seg : Seg) (rest : List Seg)
    (edits : List (String × String)) (parent : Option JSValue)
    (tfs : List (String × JSValue))
    (hw : walkParent (some json) ((seg :: rest).dropLast) = .ok parent)
    (ht : jsIndex parent ((seg :: rest).getLast (List.cons_ne_nil seg rest)) =
      .ok (some (.obj tfs))) :
    updateJsonAtPath json (seg :: rest) edits =
      .ok (setAtPath json (seg :: rest) (.obj (applyEdits tfs edits))) := by
  simp only [updateJsonAtPath, hw, ht]

theorem updateJsonAtPath_target_noop (json : JSValue) (seg : Seg) (rest : List Seg)
    (edits : List (String × String)) (parent target : Option JSValue)
    (hw : walkParent (some json) ((seg :: rest).dropLast) = .ok parent)
    (ht : jsIndex parent ((seg :: rest).getLast (List.cons_ne_nil seg rest)) = .ok target)
    (hno : ∀ tfs, target ≠ some (.obj tfs)) :
    updateJsonAtPath json (seg :: rest) edits = .ok json := by
  simp only [updateJsonAtPath, hw, ht]

/-- Shared success shape: a resolvable non-empty path whose target is a
non-array object makes the patch rebuild exactly that target from the
edits, and the target has a canonical position. -/
theorem patch_success_core (json p : JSValue) (path : List Seg) (h : path ≠ [])
    (edits : List (String × String)) (tfs : List (String × JSValue))
    (hw : walkParent (some json) path.dropLast = .ok (some p))
    (ht : jsGet p (path.getLast h) = some (.obj tfs)) :
    ∃ cp, updateJsonAtPath json path edits =
        .ok (setAtPath json path (.obj (applyEdits tfs edits))) ∧
      canonWalk json path = some cp ∧ getAtPos json cp = some (.obj tfs) := by
  have hp : p ≠ .null := by
    intro hh
    subst hh
    rw [jsGet_null] at ht
    cases ht
  obtain ⟨cp, hcw, hgp⟩ := walk_canonFull path.dropLast json p (path.getLast h) tfs hw ht
  rw [List.dropLast_append_getLast h] at hcw
  cases path with
  | nil => exact absurd rfl h
  | cons seg rest =>
    refine ⟨cp, ?_, hcw, hgp⟩
    exact updateJsonAtPath_target_obj json seg rest edits (some p) tfs hw
      (by rw [jsIndex_some_of_ne_null p _ hp, ht])


/-! ## Coercion comparison and whitespace lemmas -/

/-- Modelled from the spec's words (claim C1), for comparison with
`coerceField`: number fields numerically parse the new string, keeping
the raw string on parse failure; boolean fields coerce exactly
`"true"`/`"false"`; null fields coerce exactly `"null"`; string or
previously absent fields store the raw string unchanged. -/
def specCoerce (existing : Option JSValue) (newStringValue : String) : JSValue :=
  match existing with
  | some (.num _) =>
    match jsStrToNumber newStringValue with
    | some q => .num q
    | none => .str newStringValue
  | some (.bool _) =>
    if newStringValue = "true" then .bool true
    else if newStringValue = "false" then .bool false
    else .str newStringValue
  | some .null => if newStringValue = "null" then .null else .str newStringValue
  | _ => .str newStringValue

theorem coerceField_eq_specCoerce (ov : Option JSValue) (s : String) :
    coerceField ov s = specCoerce ov s := by
  cases ov with
  | none => rfl
  | some v =>
    cases v with
    | num q =>
      rcases hn : jsStrToNumber s with _ | q2 <;> simp [coerceField, specCoerce, hn]
    | bool b =>
      by_cases h1 : s = "true"
      · simp [coerceField, specCoerce, h1]
      · by_cases h2 : s = "false" <;> simp [coerceField, specCoerce, h1, h2]
    | null => rfl
    | str s2 => rfl
    | arr l => rfl
    | obj fields => rfl

theorem wsTrim_eq_nil (cs : List Char) (h : ∀ c ∈ cs, jsWs c = true) :
    wsTrim cs = [] := by
  have h1 : cs.dropWhile jsWs = [] := by
    induction cs with
    | nil => rfl
    | cons c rest ih =>
      rw [List.dropWhile_cons_of_pos (by simpa using h c (by simp))]
      exact ih fun c2 hc2 => h c2 (by simp [hc2])
  unfold wsTrim
  rw [h1]
  rfl

theorem jsStrToNumber_wsOnly (s : String) (h : ∀ c ∈ s.data, jsWs c = true) :
    jsStrToNumber s = some 0 := by
  simp only [jsStrToNumber, wsTrim_eq_nil s.data h]

/-! ## Concrete example documents -/

/-- The specification's running example document
`\x7b"a": \x7b"x": 1, "y": true, "z": null, "w": "s"\x7d\x7d`. -/
def exDocC1 : JSValue :=
  .obj [("a", .obj [("x", .num 1), ("y", .bool true), ("z", .null), ("w", .str "s")])]

/-- A document with a sibling key next to the patched node. -/
def exDocC2 : JSValue :=
  .obj [("a", .obj [("x", .num 1)]), ("b", .arr [.num 2])]

/-! ## Claim theorems -/

/-- C1: round-trip type fidelity of the patcher.  For every document,
non-empty path resolving (through the walk) to a non-array object
target, and edits mapping, each edited field's new string is coerced
according to the existing value's type at that field, per `specCoerce`
(number: numeric parse with raw-string fallback; boolean: exactly
`"true"`/`"false"`; null: exactly `"null"`; string or absent: raw
string).  In particular, the specification's example document patched
at `["a"]` with `\x7b"x":"2","y":"false","z":"null","w":"t"\x7d` yields the
type-preserved document, and the edit `\x7b"x":"not-a-number"\x7d` stores
the raw string without throwing. -/
theorem claim_C1_round_trip_type_fidelity :
    (∀ (json p : JSValue) (path : List Seg) (h : path ≠ [])
        (edits : List (String × String)) (tfs : List (String × JSValue))
        (field s : String),
        walkParent (some json) path.dropLast = .ok (some p) →
        jsGet p (path.getLast h) = some (.obj tfs) →
        (edits.map Prod.fst).Nodup →
        (field, s) ∈ edits →
        ∃ result cp,
          updateJsonAtPath json path edits = .ok result ∧
          canonWalk json path = some cp ∧
          getAtPos result (cp ++ [.pkey field]) =
            some (specCoerce (objGet tfs field) s)) ∧
    updateJsonAtPath exDocC1 [.key "a"]
        [("x", "2"), ("y", "false"), ("z", "null"), ("w", "t")] =
      .ok (.obj [("a", .obj [("x", .num 2), ("y", .bool false), ("z", .null),
        ("w", .str "t")])]) ∧
    updateJsonAtPath exDocC1 [.key "a"] [("x", "not-a-number")] =
      .ok (.obj [("a", .obj [("x", .str "not-a-number"), ("y", .bool true),
        ("z", .null), ("w", .str "s")])]) := by
  refine ⟨?_, rfl, rfl⟩
  intro json p path h edits tfs field s hw ht hnd hmem
  obtain ⟨cp, hupd, hcw, hgp⟩ := patch_success_core json p path h edits tfs hw ht
  refine ⟨_, cp, hupd, hcw, ?_⟩
  rw [getAtPos_setAtPath_at path json cp _ [.pkey field] hcw, getAtPos_obj,
    objGet_applyEdits_mem tfs edits field s hnd hmem, coerceField_eq_specCoerce]
  rfl

/-- Witness for C1: the universal part applied to the example document,
path `["a"]`, edit `\x7b"x": "2"\x7d`. -/
theorem claim_C1_witness :
    ∃ result cp,
      updateJsonAtPath exDocC1 [.key "a"] [("x", "2")] = .ok result ∧
      canonWalk exDocC1 [.key "a"] = some cp ∧
      getAtPos result (cp ++ [.pkey "x"]) =
        some (specCoerce (objGet [("x", .num 1), ("y", .bool true), ("z", .null),
          ("w", .str "s")] "x") "2") :=
  claim_C1_round_trip_type_fidelity.1 exDocC1 exDocC1 [.key "a"]
    (List.cons_ne_nil _ _) [("x", "2")]
    [("x", .num 1), ("y", .bool true), ("z", .null), ("w", .str "s")] "x" "2"
    rfl rfl (by simp) (by simp)

/-- C2: the patcher is pure (inherent to the functional model: the
source deep-clones before mutating, modelled as a rebuild that leaves
the input value untouched) and structurally isolating: on success,
either the document is returned unchanged, or the patched node has a
canonical position and every position that neither contains it nor lies
inside it — every sibling subtree at every level — reads back
unchanged. -/
theorem claim_C2_structural_isolation (json : JSValue) (path : List Seg)
    (edits : List (String × String)) (result : JSValue)
    (h : updateJsonAtPath json path edits = .ok result) :
    result = json ∨ ∃ cp, canonWalk json path = some cp ∧
      ∀ q, ¬ PosLe cp q → ¬ PosLe q cp → getAtPos result q = getAtPos json q := by
  cases path with
  | nil => exact Or.inr ⟨[], canonWalk_nil json, fun q h1 _ => absurd (posLe_nil q) h1⟩
  | cons seg rest =>
    rcases hw : walkParent (some json) ((seg :: rest).dropLast) with e | parent
    · rw [updateJsonAtPath_walk_err json seg rest edits e hw] at h
      cases h
    · rcases ht : jsIndex parent ((seg :: rest).getLast (List.cons_ne_nil seg rest))
        with e | target
      · rw [updateJsonAtPath_target_err json seg rest edits parent e hw ht] at h
        cases h
      · by_cases hobj : ∃ tfs, target = some (.obj tfs)
        · obtain ⟨tfs, rfl⟩ := hobj
          obtain ⟨v, hv, hvn, hjg⟩ := jsIndex_ok_inv parent _ _ ht
          subst hv
          obtain ⟨cp, hupd, hcw, hgp⟩ := patch_success_core json v (seg :: rest)
            (List.cons_ne_nil seg rest) edits tfs hw hjg
          rw [hupd] at h
          have hres : setAtPath json (seg :: rest) (.obj (applyEdits tfs edits)) = result := by
            injection h
          subst hres
          exact Or.inr ⟨cp, hcw, fun q h1 h2 =>
            getAtPos_setAtPath_off (seg :: rest) json cp _ q hcw h1 h2⟩
        · push_neg at hobj
          rw [updateJsonAtPath_target_noop json seg rest edits parent target hw ht
            (fun tfs => hobj tfs)] at h
          have : json = result := by injection h
          exact Or.inl this.symm

/-- Witness for C2: patching `["a"]` in a document with sibling key
`"b"` succeeds, and the frame property holds for it. -/
theorem claim_C2_witness :
    updateJsonAtPath exDocC2 [.key "a"] [("x", "2")] =
      .ok (.obj [("a", .obj [("x", .num 2)]), ("b", .arr [.num 2])]) ∧
    ((JSValue.obj [("a", .obj [("x", .num 2)]), ("b", .arr [.num 2])]) = exDocC2 ∨
      ∃ cp, canonWalk exDocC2 [.key "a"] = some cp ∧
        ∀ q, ¬ PosLe cp q → ¬ PosLe q cp →
          getAtPos (.obj [("a", .obj [("x", .num 2)]), ("b", .arr [.num 2])]) q =
            getAtPos exDocC2 q) :=
  ⟨rfl, claim_C2_structural_isolation exDocC2 [.key "a"] [("x", "2")] _ rfl⟩

/-- C3 counterexample: with an absent intermediate segment the patch
throws the `TypeError` of indexing `undefined` — not a designated
`PathNotFound` result — and with an intermediate resolving to a scalar
it silently succeeds without reporting anything. -/
theorem claim_C3_counterexample :
    (updateJsonAtPath (.obj []) [.key "a", .key "b"] [("x", "1")] = .error .typeError ∧
      updateJsonAtPath (.obj []) [.key "a", .key "b"] [("x", "1")] ≠
        .error .pathNotFound) ∧
    updateJsonAtPath (.obj [("a", .num 5)]) [.key "a", .key "b"] [("x", "1")] =
      .ok (.obj [("a", .num 5)]) := by
  refine ⟨⟨rfl, ?_⟩, rfl⟩
  intro hh
  rw [show updateJsonAtPath (.obj []) [.key "a", .key "b"] [("x", "1")] =
    .error .typeError from rfl] at hh
  injection hh with hh2
  cases hh2

/-- C3 amended: when an intermediate access yields `undefined` or
`null`, the patch fails with the thrown `TypeError` (there is no
designated `PathNotFound` condition in the code); when the walk ends on
a non-null scalar parent, the patch silently returns the document
unchanged. -/
theorem claim_C3_amended (json : JSValue) (seg : Seg) (rest : List Seg)
    (edits : List (String × String)) :
    (∀ e, walkParent (some json) ((seg :: rest).dropLast) = .error e →
      updateJsonAtPath json (seg :: rest) edits = .error .typeError) ∧
    (walkParent (some json) ((seg :: rest).dropLast) = .ok none →
      updateJsonAtPath json (seg :: rest) edits = .error .typeError) ∧
    (walkParent (some json) ((seg :: rest).dropLast) = .ok (some .null) →
      updateJsonAtPath json (seg :: rest) edits = .error .typeError) ∧
    (∀ p, walkParent (some json) ((seg :: rest).dropLast) = .ok (some p) →
      isScalar p = true →
      updateJsonAtPath json (seg :: rest) edits = .ok json) := by
  refine ⟨?_, ?_, ?_, ?_⟩
  · intro e hw
    have he := walkParent_error_typeError _ _ _ hw
    subst he
    exact updateJsonAtPath_walk_err json seg rest edits _ hw
  · intro hw
    exact updateJsonAtPath_target_err json seg rest edits none .typeError hw
      (jsIndex_undef _)
  · intro hw
    exact updateJsonAtPath_target_err json seg rest edits _ .typeError hw
      (jsIndex_null _)
  · intro p hw hs
    cases p with
    | null => cases hs
    | arr l => cases hs
    | obj fields => cases hs
    | num q =>
      exact updateJsonAtPath_target_noop json seg rest edits _ none hw
        (jsIndex_num q _) (fun tfs hh => by cases hh)
    | bool b =>
      exact updateJsonAtPath_target_noop json seg rest edits _ none hw
        (jsIndex_bool b _) (fun tfs hh => by cases hh)
    | str s2 =>
      refine updateJsonAtPath_target_noop json seg rest edits _ _ hw
        (jsIndex_str s2 _) (fun tfs hh => ?_)
      obtain ⟨cc, hcc⟩ := jsGet_str_shape s2 _ _ hh
      cases hcc

/-- Witness for C3 (amended): an absent intermediate throws a
`TypeError`; a numeric intermediate parent makes the patch a silent
no-op. -/
theorem claim_C3_witness :
    updateJsonAtPath (.obj [("q", .bool true)]) [.key "a", .key "b"] [] =
      .error .typeError ∧
    updateJsonAtPath (.obj [("a", .num 5)]) [.key "a", .key "c"] [] =
      .ok (.obj [("a", .num 5)]) :=
  ⟨(claim_C3_amended (.obj [("q", .bool true)]) (.key "a") [.key "b"] []).2.1 rfl,
    (claim_C3_amended (.obj [("a", .num 5)]) (.key "a") [.key "c"] []).2.2.2
      (.num 5) rfl rfl⟩

/-- C5 counterexample: on the document `null` with the single-segment
path `["x"]` every intermediate segment trivially resolves and the
target is absent, yet the patch throws (the guard's property read on
`null`) instead of succeeding unchanged. -/
theorem claim_C5_counterexample :
    updateJsonAtPath .null [.key "x"] [("k", "v")] = .error .typeError ∧
    updateJsonAtPath .null [.key "x"] [("k", "v")] ≠ .ok .null := by
  refine ⟨rfl, ?_⟩
  intro hh
  rw [show updateJsonAtPath .null [.key "x"] [("k", "v")] =
    .error .typeError from rfl] at hh
  cases hh

/-- C5 amended: if the walk reaches a non-null, non-undefined parent
and the target is not a non-array object (absent, array, scalar, or
null), the patch reports no error and returns the document
unchanged. -/
theorem claim_C5_silent_noop (json p : JSValue) (path : List Seg) (h : path ≠ [])
    (edits : List (String × String))
    (hw : walkParent (some json) path.dropLast = .ok (some p))
    (hp : p ≠ .null)
    (hno : ∀ tfs, jsGet p (path.getLast h) ≠ some (.obj tfs)) :
    updateJsonAtPath json path edits = .ok json := by
  cases path with
  | nil => exact absurd rfl h
  | cons seg rest =>
    exact updateJsonAtPath_target_noop json seg rest edits (some p) _ hw
      (by rw [jsIndex_some_of_ne_null p _ hp]) hno

/-- Witness for C5 (amended): an array target is a silent no-op. -/
theorem claim_C5_witness :
    updateJsonAtPath (.obj [("a", .arr [.num 1])]) [.key "a"] [("x", "2")] =
      .ok (.obj [("a", .arr [.num 1])]) :=
  claim_C5_silent_noop (.obj [("a", .arr [.num 1])]) (.obj [("a", .arr [.num 1])])
    [.key "a"] (List.cons_ne_nil _ _) [("x", "2")] rfl
    (fun hh => by cases hh)
    (fun tfs hh => by injection hh with hh2; cases hh2)

/-- C10: empty and whitespace-only strings coerce to zero for numeric
fields: `Number("")` and `Number(" ")` are `0`, not `NaN`, so the
patch stores the number `0`, not the raw string. -/
theorem claim_C10_ws_to_zero (json p : JSValue) (path : List Seg) (h : path ≠ [])
    (edits : List (String × String)) (tfs : List (String × JSValue))
    (field s : String) (q0 : ℚ)
    (hw : walkParent (some json) path.dropLast = .ok (some p))
    (ht : jsGet p (path.getLast h) = some (.obj tfs))
    (hnd : (edits.map Prod.fst).Nodup)
    (hmem : (field, s) ∈ edits)
    (hws : ∀ c ∈ s.data, jsWs c = true)
    (hnum : objGet tfs field = some (.num q0)) :
    ∃ result cp,
      updateJsonAtPath json path edits = .ok result ∧
      canonWalk json path = some cp ∧
      getAtPos result (cp ++ [.pkey field]) = some (.num 0) := by
  obtain ⟨cp, hupd, hcw, _⟩ := patch_success_core json p path h edits tfs hw ht
  refine ⟨_, cp, hupd, hcw, ?_⟩
  rw [getAtPos_setAtPath_at path json cp _ [.pkey field] hcw, getAtPos_obj,
    objGet_applyEdits_mem tfs edits field s hnd hmem, hnum]
  simp [coerceField, jsStrToNumber_wsOnly s hws, getAtPos_nil]

/-- Witness for C10: patching the numeric field `"x"` of
`\x7b"a": \x7b"x": 1\x7d\x7d` with `""` (and, checked directly, with `" "`)
stores the number `0`. -/
theorem claim_C10_witness :
    (∃ result cp,
      updateJsonAtPath (.obj [("a", .obj [("x", .num 1)])]) [.key "a"] [("x", "")] =
        .ok result ∧
      canonWalk (.obj [("a", .obj [("x", .num 1)])]) [.key "a"] = some cp ∧
      getAtPos result (cp ++ [.pkey "x"]) = some (.num 0)) ∧
    updateJsonAtPath (.obj [("a", .obj [("x", .num 1)])]) [.key "a"] [("x", " ")] =
      .ok (.obj [("a", .obj [("x", .num 0)])]) :=
  ⟨claim_C10_ws_to_zero (.obj [("a", .obj [("x", .num 1)])])
      (.obj [("a", .obj [("x", .num 1)])]) [.key "a"] (List.cons_ne_nil _ _)
      [("x", "")] [("x", .num 1)] "x" "" 1 rfl rfl (by simp) (by simp)
      (by simp) rfl,
    rfl⟩


/-- C4: commit atomicity on a malformed document.  If the stored
document text fails to parse when `handleSave` runs, the whole state is
returned untouched: the external document text is unchanged (the
`setContents` write is never reached), the dirty flag is not set, and
the session remains in `Editing` with its edited values intact. -/
theorem claim_C4_commit_atomicity (nodeData : Option NodeData) (st : ModalState)
    (_hedit : st.isEditing = true) (hparse : parseJson st.documentText = none) :
    handleSave nodeData st = st := by
  cases nodeData with
  | none => rfl
  | some nd => simp [handleSave, hparse]

/-- Concrete state for the C4 witness: an editing session over
unparseable document text. -/
def exStC4 : ModalState :=
  ⟨true, [("x", "9")], [("x", "1")], "nope", false⟩

/-- Witness for C4: saving with the malformed text `"nope"` leaves the
session state identical. -/
theorem claim_C4_witness :
    handleSave (some ⟨[], [.key "a"]⟩) exStC4 = exStC4 :=
  claim_C4_commit_atomicity (some ⟨[], [.key "a"]⟩) exStC4 rfl rfl

/-- Concrete state for the C6 counterexample: a session whose only
known key is `"a"`. -/
def exStC6 : ModalState :=
  ⟨true, [("a", "1")], [("a", "1")], "", false⟩

/-- C6 counterexample: `handleValueChange` with the unknown key `"b"`
is not a no-op — `\x7b...prev, [key]: value\x7d` adds the key to the live
`editedValues`. -/
theorem claim_C6_counterexample :
    (handleValueChange "b" "2" exStC6).editedValues ≠ exStC6.editedValues ∧
    "b" ∈ objKeys (handleValueChange "b" "2" exStC6).editedValues ∧
    "b" ∉ objKeys exStC6.editedValues := by
  refine ⟨?_, ?_, ?_⟩ <;> decide

/-- C6 amended: `handleValueChange k v` is an unconditional property
write on the live `editedValues`: it never touches the cancel snapshot
or the mode flag, stores `v` at `k`, leaves every other key's value
unchanged, keeps the key set when `k` is already known, and appends `k`
when it is unknown (so the spec's defensive no-op on unknown keys does
not exist; the key-set invariant holds only because the UI invokes it
solely for rendered keys). -/
theorem claim_C6_setField_amended (st : ModalState) (k v : String)
    (hedit : st.isEditing = true) :
    (handleValueChange k v st).originalValues = st.originalValues ∧
    (handleValueChange k v st).isEditing = true ∧
    objGet (handleValueChange k v st).editedValues k = some v ∧
    (∀ k2, k2 ≠ k →
      objGet (handleValueChange k v st).editedValues k2 = objGet st.editedValues k2) ∧
    (k ∈ objKeys st.editedValues →
      objKeys (handleValueChange k v st).editedValues = objKeys st.editedValues) ∧
    (k ∉ objKeys st.editedValues →
      objKeys (handleValueChange k v st).editedValues = objKeys st.editedValues ++ [k]) := by
  refine ⟨rfl, hedit, objGet_objSet_self _ _ _,
    fun k2 h2 => objGet_objSet_ne _ _ _ _ h2,
    fun hmem => objKeys_objSet_mem _ _ _ hmem,
    fun hmem => objKeys_objSet_notMem _ _ _ hmem⟩

/-- Witness for C6 (amended): applied to the concrete session with
known key `"a"` and the write of `"b"`. -/
theorem claim_C6_witness :
    (handleValueChange "b" "2" exStC6).originalValues = exStC6.originalValues ∧
    (handleValueChange "b" "2" exStC6).isEditing = true ∧
    objGet (handleValueChange "b" "2" exStC6).editedValues "b" = some "2" ∧
    (∀ k2, k2 ≠ "b" →
      objGet (handleValueChange "b" "2" exStC6).editedValues k2 =
        objGet exStC6.editedValues k2) ∧
    ("b" ∈ objKeys exStC6.editedValues →
      objKeys (handleValueChange "b" "2" exStC6).editedValues =
        objKeys exStC6.editedValues) ∧
    ("b" ∉ objKeys exStC6.editedValues →
      objKeys (handleValueChange "b" "2" exStC6).editedValues =
        objKeys exStC6.editedValues ++ ["b"]) :=
  claim_C6_setField_amended exStC6 "b" "2" rfl

/-- The two step functions folded by `normalizeNodeData` and
`specNormalize.specMultiRow` agree on every row. -/
theorem normalize_step_eq (m : List (String × JSValue)) (row : Row) :
    (if row.type != "array" && row.type != "object" then
      if truthyKey row.key then objSet m (row.key.getD "") row.value else m
    else m) =
    (match row.key with
     | some k =>
       if k ≠ "" ∧ row.type ≠ "array" ∧ row.type ≠ "object" then objSet m k row.value
       else m
     | none => m) := by
  rcases row with ⟨key, value, ty⟩
  cases key with
  | none => simp [truthyKey]
  | some k =>
    by_cases hk : k = "" <;> by_cases h1 : ty = "array" <;> by_cases h2 : ty = "object" <;>
      simp [truthyKey, hk, h1, h2]

theorem truthyKey_eq_false_iff (k : Option String) :
    truthyKey k = false ↔ (k = none ∨ k = some "") := by
  cases k with
  | none => simp [truthyKey]
  | some s => simp [truthyKey]

/-- C7: the RowNormalizer contract.  `normalizeNodeData` is total by
construction; the empty sequence yields the empty mapping; a single row
with no key (absent or empty, as the source's truthiness test reads
"no key") yields `\x7b"value": v\x7d`; and on every input it agrees with
`specNormalize`, the mapping the claim describes (non-composite rows
with non-empty keys contribute `key -> value` in order, later
duplicates overwriting, others skipped). -/
theorem claim_C7_normalizer_contract :
    normalizeNodeData [] = [] ∧
    (∀ r : Row, truthyKey r.key = false → normalizeNodeData [r] = [("value", r.value)]) ∧
    (∀ rows : List Row, normalizeNodeData rows = specNormalize rows) := by
  refine ⟨rfl, ?_, ?_⟩
  · intro r hr
    simp [normalizeNodeData, hr]
  · intro rows
    cases rows with
    | nil => rfl
    | cons r rest =>
      cases rest with
      | nil =>
        by_cases hr : truthyKey r.key = false
        · rw [show normalizeNodeData [r] = [("value", r.value)] by
            simp [normalizeNodeData, hr]]
          rw [show specNormalize [r] = [("value", r.value)] by
            simp [specNormalize, (truthyKey_eq_false_iff r.key).mp hr]]
        · have hr2 : truthyKey r.key = true := by
            cases h : truthyKey r.key
            · exact absurd h hr
            · rfl
          have hr3 : ¬ (r.key = none ∨ r.key = some "") := by
            intro hh
            rw [(truthyKey_eq_false_iff r.key).mpr hh] at hr2
            cases hr2
          rw [show normalizeNodeData [r] =
              [r].foldl (fun obj row =>
                if row.type != "array" && row.type != "object" then
                  if truthyKey row.key then objSet obj (row.key.getD "") row.value
                  else obj
                else obj) [] by
            simp [normalizeNodeData, hr2]]
          rw [show specNormalize [r] = specNormalize.specMultiRow [r] by
            simp [specNormalize, hr3]]
          exact List.foldl_ext _ _ [] fun acc x _ => normalize_step_eq acc x
      | cons r2 rest2 =>
        show List.foldl _ [] _ = List.foldl _ [] _
        exact List.foldl_ext _ _ [] fun acc x _ => normalize_step_eq acc x

/-- Witness for C7: the keyless-row clause applied to a bare scalar
row. -/
theorem claim_C7_witness :
    normalizeNodeData [⟨none, .str "x", "string"⟩] = [("value", .str "x")] :=
  claim_C7_normalizer_contract.2.1 ⟨none, .str "x", "string"⟩ rfl

/-- Bracket groups joined with `"]["` inside `"$[...]"` are exactly the
concatenation of individually bracketed groups after `"$"`. -/
theorem arrJoin_brackets (l : List Seg) :
    ∀ a : Seg, "$[" ++ arrJoin "][" ((a :: l).map segRender) ++ "]" =
      "$" ++ bracketConcat (a :: l) := by
  induction l with
  | nil =>
    intro a
    show "$[" ++ segRender a ++ "]" = "$" ++ (("[" ++ segRender a ++ "]") ++ "")
    apply String.ext
    simp [String.data_append]
  | cons b rest ih =>
    intro a
    have ihd := congrArg String.data (ih b)
    simp [String.data_append, bracketConcat] at ihd
    apply String.ext
    simp [String.data_append, bracketConcat, arrJoin]
    exact ihd

/-- C8: canonical path rendering.  `jsonPathToString` is total by
construction; an absent or empty path renders as `"$"`; a non-empty
path renders as `"$"` followed by one bracket group per segment in
order with no separator (string segments double-quoted, integer
segments bare), as `specFormat` transcribes from the claim; and the
claim's example path renders exactly as stated. -/
theorem claim_C8_path_format :
    jsonPathToString none = "$" ∧
    jsonPathToString (some []) = "$" ∧
    (∀ path : Option (List Seg), jsonPathToString path = specFormat path) ∧
    jsonPathToString (some [.key "customer", .idx 0, .key "id"]) =
      "$[\"customer\"][0][\"id\"]" := by
  refine ⟨rfl, rfl, ?_, rfl⟩
  intro path
  match path with
  | none => rfl
  | some [] => rfl
  | some (a :: l) =>
    show "$[" ++ arrJoin "][" ((a :: l).map segRender) ++ "]" = _
    rw [arrJoin_brackets l a]
    rfl

/-! ## Seeding lemmas (for C9) -/

theorem objSet_append_of_notMem {α : Type} (l : List (String × α)) (k : String)
    (v : α) (h : k ∉ objKeys l) : objSet l k v = l ++ [(k, v)] := by
  induction l with
  | nil => rfl
  | cons hd t ih =>
    obtain ⟨k0, v0⟩ := hd
    have hk : k0 ≠ k := by
      intro hh
      exact h (by simp [hh])
    have ht : k ∉ objKeys t := fun hh => h (by simp [hh])
    simp [objSet_cons, hk, ih ht]

theorem objKeys_objSet_nodup {α : Type} (l : List (String × α)) (k : String) (v : α)
    (h : (objKeys l).Nodup) : (objKeys (objSet l k v)).Nodup := by
  by_cases hmem : k ∈ objKeys l
  · rw [objKeys_objSet_mem l k v hmem]
    exact h
  · rw [objKeys_objSet_notMem l k v hmem]
    simpa [List.nodup_append] using ⟨h, fun hh => hmem hh⟩

/-- The object built by `normalizeNodeData` never has duplicate keys:
it is assembled by property writes into an initially empty object. -/
theorem normalize_keys_nodup (rows : List Row) :
    (objKeys (normalizeNodeData rows)).Nodup := by
  have hgen : ∀ (l : List Row) (init : List (String × JSValue)),
      (objKeys init).Nodup →
      (objKeys (l.foldl (fun obj row =>
        if row.type != "array" && row.type != "object" then
          if truthyKey row.key then objSet obj (row.key.getD "") row.value else obj
        else obj) init)).Nodup := by
    intro l
    induction l with
    | nil => intro init h; exact h
    | cons r t ih =>
      intro init h
      rw [List.foldl_cons]
      apply ih
      cases h1 : (r.type != "array" && r.type != "object") with
      | false => simpa [h1] using h
      | true =>
        cases h2 : truthyKey r.key with
        | false => simpa [h1, h2] using h
        | true => simpa [h1, h2] using objKeys_objSet_nodup init _ r.value h
  cases rows with
  | nil => simp [normalizeNodeData]
  | cons r rest =>
    by_cases hs : (rest.isEmpty && !truthyKey r.key) = true
    · simp [normalizeNodeData, hs]
    · simpa [normalizeNodeData, hs] using hgen (r :: rest) [] (by simp)

/-- With duplicate-free keys, the seeding fold is a per-entry map. -/
theorem seedFields_eq_map (l : List (String × JSValue))
    (h : (objKeys l).Nodup) :
    seedFields l = l.map fun kv => (kv.1, seedString kv.2) := by
  have hgen : ∀ (t : List (String × JSValue)) (acc : List (String × String)),
      (objKeys t).Nodup → (∀ k ∈ objKeys t, k ∉ objKeys acc) →
      t.foldl (fun acc kv => objSet acc kv.1 (seedString kv.2)) acc =
        acc ++ t.map fun kv => (kv.1, seedString kv.2) := by
    intro t
    induction t with
    | nil => intro acc _ _; simp
    | cons hd rest ih =>
      intro acc hnd hdisj
      obtain ⟨k0, v0⟩ := hd
      rw [List.foldl_cons]
      rw [show objSet acc k0 (seedString v0) = acc ++ [(k0, seedString v0)] from
        objSet_append_of_notMem acc k0 _ (hdisj k0 (by simp))]
      have hnd2 : (k0 :: objKeys rest).Nodup := by simpa using hnd
      have hside : ∀ k ∈ objKeys rest, k ∉ objKeys (acc ++ [(k0, seedString v0)]) := by
        intro k hk
        have hk0 : k ≠ k0 := by
          intro hh
          subst hh
          exact (List.nodup_cons.mp hnd2).1 hk
        have hacc : k ∉ objKeys acc := hdisj k (by simp [hk])
        simp only [objKeys, List.map_append]
        simp only [objKeys] at hacc
        simp [hacc, hk0]
      rw [ih (acc ++ [(k0, seedString v0)]) hnd2.of_cons hside]
      simp
  simpa using hgen l [] h (by simp)

theorem objGet_map {α β : Type} (l : List (String × α)) (f : α → β) (k : String) :
    objGet (l.map fun kv => (kv.1, f kv.2)) k = (objGet l k).map f := by
  induction l with
  | nil => rfl
  | cons hd t ih =>
    obtain ⟨k0, v0⟩ := hd
    by_cases hk : k0 = k <;> simp [objGet_cons, hk, ih]

theorem objKeys_map {α β : Type} (l : List (String × α)) (f : α → β) :
    objKeys (l.map fun kv => (kv.1, f kv.2)) = objKeys l := by
  induction l with
  | nil => rfl
  | cons hd t ih =>
    obtain ⟨k0, v0⟩ := hd
    simp only [List.map_cons, objKeys_cons, ih]

theorem objGet_mem {α : Type} (l : List (String × α)) (k : String) (v : α)
    (h : objGet l k = some v) : (k, v) ∈ l := by
  induction l with
  | nil => cases h
  | cons hd t ih =>
    obtain ⟨k0, v0⟩ := hd
    by_cases hk : k0 = k
    · subst hk
      rw [objGet_cons] at h
      simp only [if_pos rfl] at h
      have : v0 = v := by injection h
      subst this
      simp
    · rw [objGet_cons, if_neg hk] at h
      exact List.mem_cons_of_mem _ (ih h)

theorem getAtPos_append (p : List PSeg) :
    ∀ (v : JSValue) (q : List PSeg),
      getAtPos v (p ++ q) = (getAtPos v p).bind fun w => getAtPos w q := by
  induction p with
  | nil => intro v q; simp [getAtPos_nil]
  | cons ph pt ih =>
    intro v q
    cases v with
    | obj fields =>
      cases ph with
      | pkey k =>
        rw [List.cons_append, getAtPos_obj, getAtPos_obj]
        rcases hg : objGet fields k with _ | c <;> simp [ih]
      | pidx n => rfl
    | arr l =>
      cases ph with
      | pkey k => rfl
      | pidx n =>
        rw [List.cons_append, getAtPos_arr, getAtPos_arr]
        rcases hg : l.get? n with _ | c <;> simp [ih]
    | null => cases ph <;> rfl
    | num qq => cases ph <;> rfl
    | bool b => cases ph <;> rfl
    | str s2 => cases ph <;> rfl


/-- C9: null fields do not survive an unedited save.  If a node's
normalized rows map `k` to `null` and the document's target object also
holds `null` at `k`, then entering edit mode seeds `editedValues[k]`
with `""` (via `String(value ?? "")`), and an immediate commit patches
the document so that position `k` of the target holds the string `""`
instead of `null` — the patched document differs from the parsed
original, so beginEdit-then-commit is not the identity; `handleSave`
stores the stringified patched document. -/
theorem claim_C9_null_not_preserved (nd : NodeData) (st : ModalState)
    (json p : JSValue) (tfs : List (String × JSValue)) (k : String)
    (hpath : nd.path ≠ [])
    (hparse : parseJson st.documentText = some json)
    (hw : walkParent (some json) nd.path.dropLast = .ok (some p))
    (ht : jsGet p (nd.path.getLast hpath) = some (.obj tfs))
    (hrow : objGet (normalizeNodeData nd.text) k = some .null)
    (hdoc : objGet tfs k = some .null) :
    objGet (beginEdit nd st).editedValues k = some "" ∧
    ∃ result cp,
      updateJsonAtPath json nd.path (beginEdit nd st).editedValues = .ok result ∧
      canonWalk json nd.path = some cp ∧
      getAtPos result (cp ++ [.pkey k]) = some (.str "") ∧
      getAtPos json (cp ++ [.pkey k]) = some .null ∧
      result ≠ json ∧
      (handleSave (some nd) (beginEdit nd st)).documentText = jsonStringify result := by
  have hkeysnd : (objKeys (normalizeNodeData nd.text)).Nodup := normalize_keys_nodup nd.text
  have hseed : seedFields (normalizeNodeData nd.text) =
      (normalizeNodeData nd.text).map fun kv => (kv.1, seedString kv.2) :=
    seedFields_eq_map _ hkeysnd
  have hget : objGet (beginEdit nd st).editedValues k = some "" := by
    show objGet (seedFields (normalizeNodeData nd.text)) k = some ""
    rw [hseed, objGet_map, hrow]
    rfl
  have hednd : ((beginEdit nd st).editedValues.map Prod.fst).Nodup := by
    show (objKeys (seedFields (normalizeNodeData nd.text))).Nodup
    rw [hseed, objKeys_map]
    exact hkeysnd
  have hmem : (k, "") ∈ (beginEdit nd st).editedValues := objGet_mem _ _ _ hget
  obtain ⟨cp, hupd, hcw, hgp⟩ := patch_success_core json p nd.path hpath
    (beginEdit nd st).editedValues tfs hw ht
  have hval : getAtPos (setAtPath json nd.path
        (.obj (applyEdits tfs (beginEdit nd st).editedValues))) (cp ++ [.pkey k]) =
      some (.str "") := by
    rw [getAtPos_setAtPath_at nd.path json cp _ [.pkey k] hcw, getAtPos_obj,
      objGet_applyEdits_mem tfs _ k "" hednd hmem, hdoc]
    rfl
  have hnull : getAtPos json (cp ++ [.pkey k]) = some .null := by
    rw [getAtPos_append cp json [.pkey k], hgp]
    show getAtPos (.obj tfs) [.pkey k] = some .null
    rw [getAtPos_obj, hdoc]
    rfl
  refine ⟨hget, _, cp, hupd, hcw, hval, hnull, ?_, ?_⟩
  · intro he
    rw [he, hnull] at hval
    have : JSValue.null = .str "" := by injection hval
    cases this
  · show (handleSave (some nd) (beginEdit nd st)).documentText = _
    have hparse2 : parseJson (beginEdit nd st).documentText = some json := hparse
    simp [handleSave, hparse2, hupd]

/-- Concrete node and state for the C9 witness: one null field `"z"`
under key `"a"` of the document. -/
def exNdC9 : NodeData :=
  ⟨[⟨some "z", .null, "null"⟩], [.key "a"]⟩

/-- Concrete state for the C9 witness. -/
def exStC9 : ModalState :=
  ⟨false, [], [], "\x7b\"a\": \x7b\"z\": null\x7d\x7d", false⟩

/-- Witness for C9: on the document `\x7b"a": \x7b"z": null\x7d\x7d` with the
node's single null row `"z"`, seeding gives `""` and committing stores
the string `""` over the null. -/
theorem claim_C9_witness :
    objGet (beginEdit exNdC9 exStC9).editedValues "z" = some "" ∧
    ∃ result cp,
      updateJsonAtPath (.obj [("a", .obj [("z", .null)])]) exNdC9.path
          (beginEdit exNdC9 exStC9).editedValues = .ok result ∧
      canonWalk (.obj [("a", .obj [("z", .null)])]) exNdC9.path = some cp ∧
      getAtPos result (cp ++ [.pkey "z"]) = some (.str "") ∧
      getAtPos (.obj [("a", .obj [("z", .null)])]) (cp ++ [.pkey "z"]) = some .null ∧
      result ≠ .obj [("a", .obj [("z", .null)])] ∧
      (handleSave (some exNdC9) (beginEdit exNdC9 exStC9)).documentText =
        jsonStringify result :=
  claim_C9_null_not_preserved exNdC9 exStC9 (.obj [("a", .obj [("z", .null)])])
    (.obj [("a", .obj [("z", .null)])]) [("z", .null)] "z"
    (List.cons_ne_nil _ _) rfl rfl rfl rfl rfl


end NodeModal
